import Mathlib

/-!
# BigInt (ConsoleApplication_cpp/BigInt.h, BigInt.cpp)

A shallow embedding of the `BigInt` class: a sign flag and a `std::list<int>`
of base-`10^9` sections, most-significant section first.

Conventions of the embedding.

* `int` and `long long` values are mathematical integers; every arithmetic
  result is reduced to the 32-bit (`wrap32`) or 64-bit (`wrap64`) two's
  complement range, and `/`, `%` are the truncating `Int.tdiv`, `Int.tmod`.
* A loop that walks a list through a reverse iterator is a recursion over the
  reversed list (least-significant section first).
* A `while`/`for` loop without a structural bound takes a fuel argument and
  returns `none` when the fuel runs out before the loop condition fails.
* Dereferencing `rend()` is reported as `none`.
* The section counter `int i` of `operator <<` is only compared with 0 and is
  kept as a natural number.
-/

/-! ## Constants of BigInt.h -/

/-- `const int MAX_9BIT_INT_VALUE = 999999999;` -/
def MAX_9BIT_INT_VALUE : Int := 999999999

/-- `const char SIGN_NEGATIVE = '-';` -/
def SIGN_NEGATIVE : Char := '-'

/-- `const int INT_SECTION_WIDTH = 9;` -/
def INT_SECTION_WIDTH : Nat := 9

/-- `const char FILL_CHAR_OUTPUT_FOR_INT_SECTION = '0';` -/
def FILL_CHAR_OUTPUT_FOR_INT_SECTION : Char := '0'

/-! ## Machine integers -/

/-- Reduction of an integer to the range of a 32-bit `int`. -/
def wrap32 (x : Int) : Int := (x + 2147483648) % 4294967296 - 2147483648

/-- Reduction of an integer to the range of a 64-bit `long long`. -/
def wrap64 (x : Int) : Int :=
  (x + 9223372036854775808) % 18446744073709551616 - 9223372036854775808

/-! ## The class -/

/-- The two data members of `class BigInt`. -/
structure BigInt where
  /-- `std::list<int> m_intData`, front of the list first. -/
  m_intData : List Int
  /-- `bool m_isPositive`. -/
  m_isPositive : Bool
deriving DecidableEq, Repr

/-- Loop of `m_transformLL` (`while (t_dividend > MAX_9BIT_INT_VALUE)`), with
`intValue`, the loop variable `t_dividend` and the list built so far. -/
def m_transformLL_loop : Nat → Int → Int → List Int → Option (List Int)
  | 0, _, _, _ => none
  | fuel + 1, intValue, t_dividend, m_intData =>
    if t_dividend > MAX_9BIT_INT_VALUE then
      let t_quotient := wrap32 (Int.tdiv t_dividend (MAX_9BIT_INT_VALUE + 1))
      let t_remainder := wrap32 (Int.tmod intValue (MAX_9BIT_INT_VALUE + 1))
      if t_quotient ≤ MAX_9BIT_INT_VALUE then
        m_transformLL_loop fuel intValue t_dividend (t_quotient :: t_remainder :: m_intData)
      else
        m_transformLL_loop fuel intValue t_quotient (t_remainder :: m_intData)
    else some m_intData

/-- `void BigInt::m_transformLL(long long intValue)` on an empty `m_intData`. -/
def BigInt.m_transformLL (fuel : Nat) (intValue : Int) : Option (List Int) :=
  if intValue ≤ MAX_9BIT_INT_VALUE then some [wrap32 intValue]
  else m_transformLL_loop fuel intValue intValue []

/-- `BigInt(long long intValue)`. -/
def BigInt.ofLongLong (fuel : Nat) (intValue : Int) : Option BigInt :=
  let m_isPositive := decide (intValue ≥ 0)
  let positiveIntValue := if m_isPositive then intValue else wrap64 ((-1) * intValue)
  (BigInt.m_transformLL fuel positiveIntValue).map fun d => ⟨d, m_isPositive⟩

/-- `BigInt(const std::list<int> &ex_intData, bool ex_isPositive = true)`. -/
def BigInt.ofList (ex_intData : List Int) (ex_isPositive : Bool) : BigInt :=
  ⟨ex_intData, ex_isPositive⟩

/-- The value of `BigInt(0)` (as in `BigInt t_res(0)`, `BigInt i = 0`, `return 0`,
`exp < 0`): the first branch of `m_transformLL`, see `ofLongLong_zero`. -/
def BigInt.zero : BigInt := ⟨[0], true⟩

/-- The value of `BigInt(1)` (as in `BigInt t_res(1)`, `*this += 1`): the first
branch of `m_transformLL`, see `ofLongLong_one`. -/
def BigInt.one : BigInt := ⟨[1], true⟩

/-! ## Magnitude comparison -/

/-- The `for` loop of `m_isAbsLittleThan`, both lists walked from the front. -/
def m_isAbsLittleThan_loop : List Int → List Int → Bool
  | m :: ms, e :: es =>
    if m < e then true
    else if m > e then false
    else m_isAbsLittleThan_loop ms es
  | _, _ => false

/-- `bool BigInt::m_isAbsLittleThan(const BigInt &ex_bigInt) const` on the two lists. -/
def m_isAbsLittleThan (m_intData ex_intData : List Int) : Bool :=
  if m_intData.length < ex_intData.length then true
  else if m_intData.length > ex_intData.length then false
  else m_isAbsLittleThan_loop m_intData ex_intData

/-- The `for` loop of `m_isAbsEqualTo`. -/
def m_isAbsEqualTo_loop : List Int → List Int → Bool
  | m :: ms, e :: es => if m ≠ e then false else m_isAbsEqualTo_loop ms es
  | _, _ => true

/-- `bool BigInt::m_isAbsEqualTo(const BigInt &ex_bigInt) const` on the two lists. -/
def m_isAbsEqualTo (m_intData ex_intData : List Int) : Bool :=
  if m_intData.length ≠ ex_intData.length then false
  else m_isAbsEqualTo_loop m_intData ex_intData

/-! ## Magnitude addition -/

/-- First `for` loop of `m_AbsPlus`. Arguments: the receiver's sections that
`m_iter` has not passed yet and the operand's sections that `ex_iter` has not
passed yet (both least-significant first), `t_quotient`, and the receiver's
sections already rewritten (most-significant first). When `m_iter` stands on the
front section and the carry is positive, `push_front` adds a section in front of
it, which `m_iter` reaches by its next increment. -/
def m_AbsPlus_loop : List Int → List Int → Int → List Int → List Int × List Int × List Int
  | m :: ms, e :: es, t_quotient, done =>
    let t_res := wrap32 (m + e + t_quotient)
    let t_quotient := Int.tdiv t_res (MAX_9BIT_INT_VALUE + 1)
    let m := Int.tmod t_res (MAX_9BIT_INT_VALUE + 1)
    let ms := if ms = [] ∧ t_quotient > 0 then [t_quotient] else ms
    m_AbsPlus_loop ms es t_quotient (m :: done)
  | ms, es, _, done => (ms, es, done)

/-- Second `for` loop of `m_AbsPlus`: every remaining operand section is pushed
to the front of the receiver. -/
def m_AbsPlus_rest : List Int → List Int → List Int
  | [], m_intData => m_intData
  | e :: es, m_intData => m_AbsPlus_rest es (e :: m_intData)

/-- `void BigInt::m_AbsPlus(const BigInt &ex_bigInt)`: the receiver's list afterwards. -/
def m_AbsPlus (m_intData ex_intData : List Int) : List Int :=
  match m_AbsPlus_loop m_intData.reverse ex_intData.reverse 0 [] with
  | (ms, es, done) => m_AbsPlus_rest es (ms.reverse ++ done)

/-! ## Magnitude subtraction -/

/-- First `for` loop of `m_AbsMinus`, arguments as in `m_AbsPlus_loop` (there is
no carry variable in use: `t_quotient` is never read). A borrow decrements the
section in front of `*m_iter`; when there is none the result is `none`. Returns
the sections `m_iter` has not passed and the rewritten ones. -/
def m_AbsMinus_loop : List Int → List Int → List Int → Option (List Int × List Int)
  | m :: ms, t :: ts, done =>
    if m < t then
      match ms with
      | [] => none
      | n :: ns =>
        m_AbsMinus_loop (wrap32 (n - 1) :: ns) ts
          (wrap32 (wrap32 (m + (MAX_9BIT_INT_VALUE + 1)) - t) :: done)
    else m_AbsMinus_loop ms ts (wrap32 (m - t) :: done)
  | ms, _, done => some (ms, done)

/-- The loop under `//clear the zero sections`: front sections equal to 0 are
popped while the list is not empty. -/
def clearZeroSections : List Int → List Int
  | [] => []
  | x :: xs => if 0 = x then clearZeroSections xs else x :: xs

/-- `void BigInt::m_AbsMinus(const BigInt &ex_bigInt)`: the receiver's list afterwards. -/
def m_AbsMinus (m_intData ex_intData : List Int) : Option (List Int) :=
  let (m_intData, t_intValue) :=
    if m_isAbsLittleThan m_intData ex_intData then (ex_intData, m_intData)
    else (m_intData, ex_intData)
  match m_AbsMinus_loop m_intData.reverse t_intValue.reverse [] with
  | none => none
  | some (ms, done) =>
    if ms = [] then some (clearZeroSections done) else some (ms.reverse ++ done)

/-! ## Signed addition and subtraction -/

/-- `BigInt& BigInt::operator +=(const BigInt &ex_bigInt)`: the receiver afterwards. -/
def BigInt.plusAssign (a ex_bigInt : BigInt) : Option BigInt :=
  if a.m_isPositive = ex_bigInt.m_isPositive then
    some ⟨m_AbsPlus a.m_intData ex_bigInt.m_intData, a.m_isPositive⟩
  else if a.m_isPositive then
    (m_AbsMinus a.m_intData ex_bigInt.m_intData).map fun d =>
      ⟨d, !(m_isAbsLittleThan d ex_bigInt.m_intData)⟩
  else
    (m_AbsMinus a.m_intData ex_bigInt.m_intData).map fun d =>
      ⟨d, m_isAbsLittleThan d ex_bigInt.m_intData⟩

/-- `operator +(const BigInt &a_bigInt, const BigInt &b_bigInt)`. -/
def BigInt.plus (a_bigInt b_bigInt : BigInt) : Option BigInt :=
  BigInt.plusAssign a_bigInt b_bigInt

/-- `BigInt& operator -=(const BigInt &ex_bigInt)`: the receiver afterwards. -/
def BigInt.minusAssign (a ex_bigInt : BigInt) : Option BigInt :=
  let t_res := BigInt.ofList ex_bigInt.m_intData (!ex_bigInt.m_isPositive)
  BigInt.plusAssign a t_res

/-- `operator -(const BigInt &a_bigInt, const BigInt &b_bigInt)`. -/
def BigInt.minus (a_bigInt b_bigInt : BigInt) : Option BigInt :=
  BigInt.minusAssign a_bigInt b_bigInt

/-! ## Multiplication -/

/-- The `for` loop of `multipleWithInt`: the multiplicand's sections not yet
visited (least-significant first), the multiplier, `t_quotient`, and
`t_res.m_intData`. -/
def multipleWithInt_loop : List Int → Int → Int → List Int → List Int
  | [], _, _, t_res => t_res
  | x :: xs, ex_multiplier, t_quotient, t_res =>
    let t_multiple := wrap64 (wrap64 (x * ex_multiplier) + t_quotient)
    let t_res := wrap32 (Int.tmod t_multiple (MAX_9BIT_INT_VALUE + 1)) :: t_res
    let t_quotient := wrap32 (Int.tdiv t_multiple (MAX_9BIT_INT_VALUE + 1))
    let t_res := if t_quotient > 0 ∧ xs = [] then t_quotient :: t_res else t_res
    multipleWithInt_loop xs ex_multiplier t_quotient t_res

/-- `BigInt multipleWithInt(const BigInt &bi_multiplicand, int ex_multiplier)`. -/
def multipleWithInt (bi_multiplicand : BigInt) (ex_multiplier : Int) : BigInt :=
  ⟨multipleWithInt_loop bi_multiplicand.m_intData.reverse ex_multiplier 0 [], true⟩

/-- The `for` loop of `operator *=`: the operand's sections not yet visited
(least-significant first), `t_res` and `t_multiplicand`. -/
def mulAssign_loop : List Int → BigInt → BigInt → Option BigInt
  | [], t_res, _ => some t_res
  | e :: es, t_res, t_multiplicand =>
    match BigInt.plusAssign t_res (multipleWithInt t_multiplicand e) with
    | none => none
    | some t_res =>
      mulAssign_loop es t_res ⟨t_multiplicand.m_intData ++ [0], t_multiplicand.m_isPositive⟩

/-- `BigInt& BigInt::operator *=(const BigInt &ex_bigInt)`: the receiver afterwards.
The sign flag is first set to `m_isPositive && ex_bigInt.m_isPositive`; the final
`*this = t_res` copies both members of `t_res` into the receiver. -/
def BigInt.mulAssign (a ex_bigInt : BigInt) : Option BigInt :=
  let a : BigInt := ⟨a.m_intData, a.m_isPositive && ex_bigInt.m_isPositive⟩
  let t_res := BigInt.zero
  let t_multiplicand := BigInt.ofList a.m_intData true
  match mulAssign_loop ex_bigInt.m_intData.reverse t_res t_multiplicand with
  | none => none
  | some t_res => some ⟨t_res.m_intData, t_res.m_isPositive⟩

/-- `operator *(const BigInt &a_bigInt, const BigInt &b_bigInt)`. -/
def BigInt.mul (a_bigInt b_bigInt : BigInt) : Option BigInt :=
  BigInt.mulAssign a_bigInt b_bigInt

/-! ## Comparison operators -/

/-- `operator <(const BigInt &a_bigInt, const BigInt &b_bigInt)`. -/
def BigInt.lt (a_bigInt b_bigInt : BigInt) : Bool :=
  if !a_bigInt.m_isPositive && b_bigInt.m_isPositive then true
  else if a_bigInt.m_isPositive && !b_bigInt.m_isPositive then false
  else if a_bigInt.m_isPositive then m_isAbsLittleThan a_bigInt.m_intData b_bigInt.m_intData
  else !(m_isAbsLittleThan a_bigInt.m_intData b_bigInt.m_intData)

/-- `operator ==(const BigInt &a_bigInt, const BigInt &b_bigInt)`. -/
def BigInt.eq (a_bigInt b_bigInt : BigInt) : Bool :=
  if a_bigInt.m_isPositive ≠ b_bigInt.m_isPositive then false
  else m_isAbsEqualTo a_bigInt.m_intData b_bigInt.m_intData

/-- `operator !=`. -/
def BigInt.ne (a_bigInt b_bigInt : BigInt) : Bool := !(BigInt.eq a_bigInt b_bigInt)

/-- `operator <=`. -/
def BigInt.le (a_bigInt b_bigInt : BigInt) : Bool :=
  BigInt.lt a_bigInt b_bigInt && BigInt.eq a_bigInt b_bigInt

/-- `operator >`. -/
def BigInt.gt (a_bigInt b_bigInt : BigInt) : Bool := !(BigInt.le a_bigInt b_bigInt)

/-- `operator >=`. -/
def BigInt.ge (a_bigInt b_bigInt : BigInt) : Bool := !(BigInt.lt a_bigInt b_bigInt)

/-! ## Power -/

/-- The `for (BigInt i = 0; i < exp; i++)` loop of `pow`, with the loop
variable `i` and `t_res`; `i++` is `i += 1`. -/
def pow_loop : Nat → BigInt → BigInt → BigInt → BigInt → Option BigInt
  | 0, _, _, _, _ => none
  | fuel + 1, this, exp, i, t_res =>
    if BigInt.lt i exp then
      match BigInt.mulAssign t_res this with
      | none => none
      | some t_res =>
        match BigInt.plusAssign i BigInt.one with
        | none => none
        | some i => pow_loop fuel this exp i t_res
    else some t_res

/-- `BigInt BigInt::pow(const BigInt &exp) const` (the message on `std::cout`
is left out). -/
def BigInt.pow (fuel : Nat) (this exp : BigInt) : Option BigInt :=
  if BigInt.lt exp BigInt.zero then some BigInt.zero
  else pow_loop fuel this exp BigInt.zero BigInt.one

/-! ## Output -/

/-- The text `std::ostream` writes for an `int`: decimal digits, after a `-`
for a negative value. -/
def intText (x : Int) : List Char :=
  if x < 0 then '-' :: Nat.toDigits 10 x.natAbs else Nat.toDigits 10 x.natAbs

/-- An output under `std::setw(width)` and `std::setfill(fill)`: fill characters
in front, up to the width. -/
def setwFill (width : Nat) (fill : Char) (s : List Char) : List Char :=
  List.replicate (width - s.length) fill ++ s

/-- The `for` loop of `operator <<`, with the counter `i` (which is only
compared with 0) and the sections `iter` has not passed. -/
def operatorOut_loop : Nat → List Int → List Char
  | _, [] => []
  | i, x :: xs =>
    (if i > 0 then setwFill INT_SECTION_WIDTH FILL_CHAR_OUTPUT_FOR_INT_SECTION (intText x)
     else intText x) ++ operatorOut_loop (i + 1) xs

/-- `std::ostream& operator <<(std::ostream &out, BigInt &a_bigInt)`: the text
written to `out`, `std::endl` being a line feed. -/
def operatorOut (a_bigInt : BigInt) : String :=
  String.mk ((if !a_bigInt.m_isPositive then [SIGN_NEGATIVE] else [])
    ++ operatorOut_loop 0 a_bigInt.m_intData ++ ['\n'])

/-! ## Specification vocabulary -/

/-- The magnitude a section list denotes in base `10^9`, most-significant
section first. -/
def sectionsValue (l : List Int) : Int :=
  l.foldl (fun acc c => acc * 1000000000 + c) 0

/-- The representation invariant of a section list: not empty, every section in
`[0, 999999999]`, and no zero section in front unless the list is `[0]`. -/
def ValidSections (l : List Int) : Prop :=
  l ≠ [] ∧ (∀ c ∈ l, 0 ≤ c ∧ c ≤ 999999999) ∧ (l.head? = some 0 → l = [0])

instance (l : List Int) : Decidable (ValidSections l) := by
  unfold ValidSections; infer_instance

/-- The `k` low decimal digits of `n`, with zeros in front. -/
def fixedDigits : Nat → Nat → List Char
  | 0, _ => []
  | k + 1, n => fixedDigits k (n / 10) ++ [Nat.digitChar (n % 10)]

/-- The section list of `t_res` after `n` iterations of the loop of `pow` with a
one-section base `c`: `n` times `multipleWithInt` by `c`. -/
def powSections (c : Int) : Nat → List Int → List Int
  | 0, L => L
  | n + 1, L => powSections c n (multipleWithInt ⟨L, true⟩ c).m_intData

/-- The exact values met in the loop of `multipleWithInt`, one pair per section
visited: `*iter * ex_multiplier + t_quotient` computed without reduction, and
`t_multiple / (MAX_9BIT_INT_VALUE + 1)` before its conversion to `int`. The carry
entering the next iteration is the converted one, as in `multipleWithInt_loop`. -/
def multipleWithInt_intermediates : List Int → Int → Int → List (Int × Int)
  | [], _, _ => []
  | x :: xs, ex_multiplier, t_quotient =>
    let t_multiple := wrap64 (wrap64 (x * ex_multiplier) + t_quotient)
    (x * ex_multiplier + t_quotient, Int.tdiv t_multiple (MAX_9BIT_INT_VALUE + 1))
      :: multipleWithInt_intermediates xs ex_multiplier
          (wrap32 (Int.tdiv t_multiple (MAX_9BIT_INT_VALUE + 1)))

/-- The invariant of a value: valid sections, and zero stored with a positive
sign (`-0` is not a state of its own). -/
def ValidBigInt (a : BigInt) : Prop :=
  ValidSections a.m_intData ∧ (a.m_intData = [0] → a.m_isPositive = true)

instance (a : BigInt) : Decidable (ValidBigInt a) := by
  unfold ValidBigInt; infer_instance

/-! # Theorems -/

/-! ## Machine arithmetic in range -/

theorem wrap32_eq_self {x : Int} (h1 : -2147483648 ≤ x) (h2 : x ≤ 2147483647) :
    wrap32 x = x := by
  unfold wrap32; omega

theorem wrap64_eq_self {x : Int} (h1 : -9223372036854775808 ≤ x)
    (h2 : x ≤ 9223372036854775807) : wrap64 x = x := by
  unfold wrap64; omega

/-! ## Construction -/

/-- Once `t_dividend` exceeds `MAX_9BIT_INT_VALUE` inside `m_transformLL`, the
loop never leaves: both branches keep it above the bound. -/
theorem m_transformLL_loop_none (fuel : Nat) :
    ∀ (intValue t_dividend : Int) (data : List Int),
      t_dividend > MAX_9BIT_INT_VALUE →
      m_transformLL_loop fuel intValue t_dividend data = none := by
  induction fuel with
  | zero => intro _ _ _ _; rfl
  | succ n ih =>
    intro intValue t_dividend data h
    simp only [m_transformLL_loop, if_pos h]
    split
    · exact ih _ _ _ h
    · rename_i hq
      exact ih _ _ _ (lt_of_not_ge hq)

theorem ofLongLong_nonneg_small (fuel : Nat) (v : Int) (h0 : 0 ≤ v)
    (h1 : v ≤ 999999999) : BigInt.ofLongLong fuel v = some ⟨[v], true⟩ := by
  have hw : wrap32 v = v := wrap32_eq_self (by omega) (by omega)
  simp [BigInt.ofLongLong, BigInt.m_transformLL, MAX_9BIT_INT_VALUE, h0, h1, hw]

theorem ofLongLong_zero (fuel : Nat) : BigInt.ofLongLong fuel 0 = some BigInt.zero :=
  ofLongLong_nonneg_small fuel 0 (by decide) (by decide)

theorem ofLongLong_one (fuel : Nat) : BigInt.ofLongLong fuel 1 = some BigInt.one :=
  ofLongLong_nonneg_small fuel 1 (by decide) (by decide)

/-- A value of one section is rendered as its decimal text followed by the
line break. -/
theorem roundtrip_one_section (fuel : Nat) (v : Int) (h0 : -999999999 ≤ v)
    (h1 : v ≤ 999999999) :
    (BigInt.ofLongLong fuel v).map operatorOut = some (String.mk (intText v ++ ['\n'])) := by
  by_cases hv : 0 ≤ v
  · rw [ofLongLong_nonneg_small fuel v hv h1]
    have hn : ¬ v < 0 := not_lt.mpr hv
    simp [operatorOut, operatorOut_loop, intText, hn]
  · have hneg : v < 0 := lt_of_not_ge hv
    have hw64 : wrap64 (-v) = -v := wrap64_eq_self (by omega) (by omega)
    have hw32 : wrap32 (-v) = -v := wrap32_eq_self (by omega) (by omega)
    have hle : -v ≤ MAX_9BIT_INT_VALUE := by
      have : MAX_9BIT_INT_VALUE = 999999999 := rfl
      omega
    have hnn : ¬ -v < 0 := by omega
    simp [BigInt.ofLongLong, BigInt.m_transformLL, hv, hw64, hw32, hle, operatorOut,
      operatorOut_loop, intText, hneg, hnn, SIGN_NEGATIVE]

/-- C1 (code defect). `BigInt(1000000000)` never returns, whatever the number of
loop iterations allowed, so nothing is rendered for it: the round trip fails at
the first value of two sections. -/
theorem roundtrip_fails_at_1000000000 :
    ∀ fuel : Nat, (BigInt.ofLongLong fuel 1000000000).map operatorOut = none := by
  intro fuel
  have h : BigInt.m_transformLL fuel 1000000000 = none := by
    unfold BigInt.m_transformLL
    rw [if_neg (by decide)]
    exact m_transformLL_loop_none fuel _ _ _ (by decide)
  simp [BigInt.ofLongLong, h]

/-- C2 (code defect). Same-sign addition of valid operands of different section
counts is not exact: `[999999999] += [1, 1]` counts the carry twice and yields
`[3, 0]` (3000000000 instead of 2000000000), and `[1, 999999999] += [1]` drops
the carry and yields `[1, 0]` (1000000000 instead of 2000000000). -/
theorem plusAssign_same_sign_inexact :
    (ValidSections [999999999] ∧ ValidSections [1, 1] ∧
      BigInt.plusAssign ⟨[999999999], true⟩ ⟨[1, 1], true⟩ = some ⟨[3, 0], true⟩ ∧
      sectionsValue [3, 0] ≠ sectionsValue [999999999] + sectionsValue [1, 1]) ∧
    (ValidSections [1, 999999999] ∧ ValidSections [1] ∧
      BigInt.plusAssign ⟨[1, 999999999], true⟩ ⟨[1], true⟩ = some ⟨[1, 0], true⟩ ∧
      sectionsValue [1, 0] ≠ sectionsValue [1, 999999999] + sectionsValue [1]) := by
  decide

/-- C3 (code defect). `BigInt(-5) + BigInt(3)` is the positive value `[2]`,
rendered `2`: the sign is decided by comparing the difference (already stored
in the receiver) with the operand, not the receiver's original magnitude. -/
theorem plus_neg5_3_is_positive :
    ∀ fuel : Nat,
      (BigInt.ofLongLong fuel (-5)).bind (fun a =>
        (BigInt.ofLongLong fuel 3).bind (fun b => BigInt.plus a b))
        = some ⟨[2], true⟩ ∧
      (BigInt.ofLongLong fuel (-5)).bind (fun a =>
        (BigInt.ofLongLong fuel 3).bind (fun b => (BigInt.plus a b).map operatorOut))
        = some "2\n" := by
  intro fuel
  constructor <;> rfl

/-- C4 (code defect). Subtraction and multiplication do not keep the
representation invariant. `[1, 0] -= BigInt(1)` leaves `[0, 999999999]` (a zero
section in front, rendered `0999999999`): the zero sections are only cleared
when both lists have the same length. `BigInt(5) -= BigInt(5)` leaves the empty
list. `[1, 0, 0] -= BigInt(1)` leaves the section `-1`. `[1, 0] *= BigInt(0)`
leaves `[0, 0]`. -/
theorem arithmetic_breaks_invariant :
    ∀ fuel : Nat,
      (ValidSections [1, 0] ∧
        (BigInt.ofLongLong fuel 1).bind (fun b => BigInt.minusAssign ⟨[1, 0], true⟩ b)
          = some ⟨[0, 999999999], true⟩ ∧
        ¬ ValidSections [0, 999999999] ∧
        operatorOut ⟨[0, 999999999], true⟩ = "0999999999\n") ∧
      ((BigInt.ofLongLong fuel 5).bind (fun a =>
          (BigInt.ofLongLong fuel 5).bind (fun b => BigInt.minusAssign a b))
          = some ⟨[], false⟩ ∧
        ¬ ValidSections []) ∧
      (ValidSections [1, 0, 0] ∧
        (BigInt.ofLongLong fuel 1).bind (fun b => BigInt.minusAssign ⟨[1, 0, 0], true⟩ b)
          = some ⟨[1, -1, 999999999], true⟩ ∧
        ¬ ValidSections [1, -1, 999999999]) ∧
      ((BigInt.ofLongLong fuel 0).bind (fun b => BigInt.mulAssign ⟨[1, 0], true⟩ b)
          = some ⟨[0, 0], true⟩ ∧
        ¬ ValidSections [0, 0]) := by
  intro fuel
  refine ⟨⟨by decide, rfl, by decide, by decide⟩, ⟨rfl, by decide⟩,
    ⟨by decide, rfl, by decide⟩, ⟨rfl, by decide⟩⟩

/-! ## Multiplication: the sign of the result -/

theorem mulAssign_loop_positive (es : List Int) :
    ∀ (t_res t_multiplicand : BigInt), t_res.m_isPositive = true →
      ∃ r, mulAssign_loop es t_res t_multiplicand = some r ∧ r.m_isPositive = true := by
  induction es with
  | nil => intro t_res _ h; exact ⟨t_res, rfl, h⟩
  | cons e es ih =>
    intro t_res t_multiplicand h
    have hp : BigInt.plusAssign t_res (multipleWithInt t_multiplicand e)
        = some ⟨m_AbsPlus t_res.m_intData (multipleWithInt t_multiplicand e).m_intData,
            true⟩ := by
      simp [BigInt.plusAssign, multipleWithInt, h]
    simp only [mulAssign_loop, hp]
    exact ih _ _ rfl

/-- C5 (code defect). The sign flag of a product is always positive:
`return (*this = t_res)` replaces the receiver, sign included, by the
accumulator, which starts as `BigInt(0)` and only receives positive partial
products. `BigInt(-2) * BigInt(3)` is the positive value `[6]`. -/
theorem mul_sign_always_positive :
    (∀ a b : BigInt, ∃ r, BigInt.mul a b = some r ∧ r.m_isPositive = true) ∧
    (∀ fuel : Nat,
      (BigInt.ofLongLong fuel (-2)).bind (fun a =>
        (BigInt.ofLongLong fuel 3).bind (fun b => BigInt.mul a b))
        = some ⟨[6], true⟩) := by
  refine ⟨fun a b => ?_, fun fuel => rfl⟩
  obtain ⟨r, hr, hpos⟩ := mulAssign_loop_positive b.m_intData.reverse BigInt.zero
    (BigInt.ofList a.m_intData true) rfl
  exact ⟨⟨r.m_intData, r.m_isPositive⟩, by simp [BigInt.mul, BigInt.mulAssign, hr], hpos⟩

/-- C6 (code defect). The product of the valid operands `[999999999]` and
`[2, 999999999]` is computed as `[3, 999999996, 1]`, while
`999999999 * 2999999999 = 2999999996000000001` is `[2, 999999996, 1]`: adding the
second partial product to the shorter accumulator counts the carry twice. -/
theorem mul_magnitude_inexact :
    ValidSections [999999999] ∧ ValidSections [2, 999999999] ∧
    BigInt.mul ⟨[999999999], true⟩ ⟨[2, 999999999], true⟩
      = some ⟨[3, 999999996, 1], true⟩ ∧
    sectionsValue [3, 999999996, 1]
      ≠ sectionsValue [999999999] * sectionsValue [2, 999999999] ∧
    sectionsValue [999999999] * sectionsValue [2, 999999999]
      = sectionsValue [2, 999999996, 1] := by
  decide

/-- C8. For every receiver and every exponent whose sign flag is negative, `pow`
returns `BigInt(0)`, the list `[0]` with a positive sign, already with no loop
iteration available: no multiplication is performed. -/
theorem pow_negative_exponent (this exp : BigInt)
    (h : exp.m_isPositive = false) :
    BigInt.pow 0 this exp = some ⟨[0], true⟩ ∧
    ∀ fuel : Nat, BigInt.pow fuel this exp = some ⟨[0], true⟩ ∧
      BigInt.pow fuel this exp = BigInt.ofLongLong fuel 0 := by
  have hlt : BigInt.lt exp BigInt.zero = true := by
    simp [BigInt.lt, BigInt.zero, h]
  have hp : ∀ fuel : Nat, BigInt.pow fuel this exp = some ⟨[0], true⟩ := by
    intro fuel
    unfold BigInt.pow
    rw [if_pos hlt]
    rfl
  refine ⟨hp 0, fun fuel => ⟨hp fuel, ?_⟩⟩
  rw [hp fuel, ofLongLong_zero]; rfl

/-- The negative exponent `-3` under the base `2`. -/
theorem pow_negative_exponent_witness :
    BigInt.pow 0 ⟨[2], true⟩ ⟨[3], false⟩ = some ⟨[0], true⟩ ∧
    ∀ fuel : Nat, BigInt.pow fuel ⟨[2], true⟩ ⟨[3], false⟩ = some ⟨[0], true⟩ ∧
      BigInt.pow fuel ⟨[2], true⟩ ⟨[3], false⟩ = BigInt.ofLongLong fuel 0 :=
  pow_negative_exponent ⟨[2], true⟩ ⟨[3], false⟩ rfl

/-- C10 (code defect). For `a = b = BigInt(-5)` all three of `a < b`, `a == b`
and `b < a` are true: for two negative operands `operator <` returns the
negation of `m_isAbsLittleThan`, which is true for equal magnitudes. -/
theorem trichotomy_fails_equal_negative :
    ∀ fuel : Nat,
      (BigInt.ofLongLong fuel (-5)).bind (fun a =>
        (BigInt.ofLongLong fuel (-5)).map (fun b =>
          (BigInt.lt a b, BigInt.eq a b, BigInt.lt b a)))
        = some (true, true, true) := by
  intro fuel
  rfl

/-! ## Decimal digits -/

theorem toDigitsCore_fuel (n : Nat) :
    ∀ (f : Nat) (acc : List Char), n < f →
      Nat.toDigitsCore 10 f n acc = Nat.toDigits 10 n ++ acc := by
  induction n using Nat.strong_induction_on with
  | _ n ih =>
    intro f acc h
    cases f with
    | zero => exact absurd h (Nat.not_lt_zero n)
    | succ f =>
      unfold Nat.toDigits
      simp only [Nat.toDigitsCore]
      by_cases hz : n / 10 = 0
      · simp [hz]
      · rw [if_neg hz, if_neg hz]
        have hlt : n / 10 < n := Nat.div_lt_self (by omega) (by decide)
        rw [ih (n / 10) hlt f _ (by omega), ih (n / 10) hlt n _ hlt]
        simp

theorem toDigits_lt_ten {n : Nat} (h : n < 10) :
    Nat.toDigits 10 n = [Nat.digitChar n] := by
  have hz : n / 10 = 0 := by omega
  have hm : n % 10 = n := by omega
  simp [Nat.toDigits, Nat.toDigitsCore, hz, hm]

theorem toDigits_ten_le {n : Nat} (h : 10 ≤ n) :
    Nat.toDigits 10 n = Nat.toDigits 10 (n / 10) ++ [Nat.digitChar (n % 10)] := by
  have hz : n / 10 ≠ 0 := by omega
  have hlt : n / 10 < n := Nat.div_lt_self (by omega) (by decide)
  unfold Nat.toDigits
  rw [Nat.toDigitsCore, if_neg hz]
  exact toDigitsCore_fuel (n / 10) n _ hlt

theorem toDigits_length_pos (n : Nat) : 0 < (Nat.toDigits 10 n).length := by
  by_cases h : n < 10
  · rw [toDigits_lt_ten h]; simp
  · rw [toDigits_ten_le (by omega)]; simp

theorem fixedDigits_length (k : Nat) : ∀ n, (fixedDigits k n).length = k := by
  induction k with
  | zero => intro _; rfl
  | succ k ih => intro n; simp [fixedDigits, ih]

theorem fixedDigits_zero (k : Nat) : fixedDigits k 0 = List.replicate k '0' := by
  induction k with
  | zero => rfl
  | succ k ih =>
    simp only [fixedDigits, Nat.zero_div, Nat.zero_mod, ih]
    exact (List.replicate_succ' k '0').symm

/-- In front of `k` fixed digits the numeral of a positive number continues
without a gap: the numeral of `a * 10^k + b`. -/
theorem toDigits_append_fixedDigits (k : Nat) :
    ∀ (a b : Nat), 0 < a → b < 10 ^ k →
      Nat.toDigits 10 (a * 10 ^ k + b) = Nat.toDigits 10 a ++ fixedDigits k b := by
  induction k with
  | zero =>
    intro a b _ hb
    have : b = 0 := by simpa using hb
    simp [this, fixedDigits]
  | succ k ih =>
    intro a b ha hb
    have hpos : 0 < 10 ^ k := by positivity
    have hge : 1 * 10 ^ k ≤ a * 10 ^ k := Nat.mul_le_mul_right _ ha
    have hpow : a * 10 ^ (k + 1) + b = (a * 10 ^ k) * 10 + b := by
      rw [pow_succ, Nat.mul_assoc]
    have h10 : 10 ≤ a * 10 ^ (k + 1) + b := by omega
    have hdiv : (a * 10 ^ (k + 1) + b) / 10 = a * 10 ^ k + b / 10 := by omega
    have hmod : (a * 10 ^ (k + 1) + b) % 10 = b % 10 := by omega
    have hb' : b / 10 < 10 ^ k := by
      rw [pow_succ] at hb; omega
    rw [toDigits_ten_le h10, hdiv, hmod, ih a (b / 10) ha hb']
    simp [fixedDigits]

/-- Under `setw(k)` and fill character `0`, the numeral of a number below
`10^k` is its `k` fixed digits. -/
theorem setwFill_toDigits (k : Nat) :
    ∀ n : Nat, 0 < k → n < 10 ^ k →
      setwFill k '0' (Nat.toDigits 10 n) = fixedDigits k n := by
  induction k with
  | zero => intro _ h; exact absurd h (Nat.lt_irrefl 0)
  | succ k ih =>
    intro n _ hn
    by_cases h : n < 10
    · have hz : n / 10 = 0 := by omega
      have hm : n % 10 = n := by omega
      simp [toDigits_lt_ten h, setwFill, fixedDigits, hz, hm, fixedDigits_zero]
    · have hk : 0 < k := by
        rcases Nat.eq_zero_or_pos k with h0 | h0
        · subst h0; simp at hn; omega
        · exact h0
      have hn' : n / 10 < 10 ^ k := by
        rw [pow_succ] at hn; omega
      rw [toDigits_ten_le (by omega)]
      simp only [fixedDigits]
      rw [← ih (n / 10) hk hn']
      simp [setwFill]

/-! ## Output of a valid value -/

theorem intText_nonneg {x : Int} (h : 0 ≤ x) : intText x = Nat.toDigits 10 x.toNat := by
  have hn : x.natAbs = x.toNat := by omega
  simp [intText, not_lt.mpr h, hn]

theorem setwFill_intText {x : Int} (h0 : 0 ≤ x) (h1 : x ≤ 999999999) :
    setwFill INT_SECTION_WIDTH FILL_CHAR_OUTPUT_FOR_INT_SECTION (intText x)
      = fixedDigits 9 x.toNat := by
  rw [intText_nonneg h0]
  exact setwFill_toDigits 9 x.toNat (by decide) (by omega)

/-- Sections written after the first one extend the numeral written so far. -/
theorem operatorOut_loop_numeral (cs : List Int) :
    ∀ (i acc : Nat), 0 < i → 0 < acc → (∀ c ∈ cs, 0 ≤ c ∧ c ≤ 999999999) →
      Nat.toDigits 10 acc ++ operatorOut_loop i cs
        = Nat.toDigits 10 (cs.foldl (fun a c => a * 1000000000 + c) (acc : Int)).toNat := by
  induction cs with
  | nil => intro i acc _ _ _; simp [operatorOut_loop]
  | cons c cs ih =>
    intro i acc hi hacc hr
    have hc := hr c (List.mem_cons_self c cs)
    have hcast : ((acc * 10 ^ 9 + c.toNat : Nat) : Int) = (acc : Int) * 1000000000 + c := by
      push_cast
      rw [Int.toNat_of_nonneg hc.1]
    simp only [operatorOut_loop, if_pos hi, List.foldl_cons]
    rw [setwFill_intText hc.1 hc.2, ← List.append_assoc,
      ← toDigits_append_fixedDigits 9 acc c.toNat hacc (by omega),
      ih (i + 1) (acc * 10 ^ 9 + c.toNat) (by omega) (by positivity)
        (fun d hd => hr d (List.mem_cons_of_mem c hd)),
      hcast]

/-- Sections written after the first one are each written under `setw(9)` with
fill character `0`. -/
theorem operatorOut_loop_padded (cs : List Int) :
    ∀ i : Nat, 0 < i → (∀ c ∈ cs, 0 ≤ c ∧ c ≤ 999999999) →
      operatorOut_loop i cs
        = (cs.map fun d => setwFill 9 '0' (Nat.toDigits 10 d.toNat)).flatten := by
  induction cs with
  | nil => intro i _ _; rfl
  | cons c cs ih =>
    intro i hi hr
    have hc := hr c (List.mem_cons_self c cs)
    simp only [operatorOut_loop, if_pos hi, List.map_cons, List.flatten_cons]
    rw [ih (i + 1) (by omega) (fun d hd => hr d (List.mem_cons_of_mem c hd)),
      intText_nonneg hc.1]
    rfl

/-- C9. For a valid value `operator <<` writes a `-` exactly when the sign flag
is negative, then the first section without padding and every later section
padded with `0` to exactly 9 characters, then the line break; the digits written
are the decimal numeral of the magnitude the sections denote in base `10^9`. -/
theorem operatorOut_exact_decimal (x : BigInt) (h : ValidSections x.m_intData) :
    operatorOut x
      = String.mk ((if x.m_isPositive then [] else ['-'])
          ++ Nat.toDigits 10 (sectionsValue x.m_intData).toNat ++ ['\n']) ∧
    ∃ c cs, x.m_intData = c :: cs ∧
      operatorOut x
        = String.mk ((if x.m_isPositive then [] else ['-'])
            ++ Nat.toDigits 10 c.toNat
            ++ (cs.map fun d => setwFill 9 '0' (Nat.toDigits 10 d.toNat)).flatten
            ++ ['\n']) ∧
      ∀ d ∈ cs, (setwFill 9 '0' (Nat.toDigits 10 d.toNat)).length = 9 := by
  obtain ⟨l, pos⟩ := x
  obtain ⟨hne, hr, hz⟩ := h
  cases l with
  | nil => exact absurd rfl hne
  | cons c cs =>
    have hc := hr c (List.mem_cons_self c cs)
    have hcs : ∀ d ∈ cs, 0 ≤ d ∧ d ≤ 999999999 :=
      fun d hd => hr d (List.mem_cons_of_mem c hd)
    have hsign : (if (!pos) = true then [SIGN_NEGATIVE] else [])
        = (if pos = true then [] else ['-']) := by
      cases pos <;> rfl
    have hfirst : operatorOut_loop 0 (c :: cs)
        = Nat.toDigits 10 c.toNat ++ operatorOut_loop 1 cs := by
      simp [operatorOut_loop, intText_nonneg hc.1]
    have hval : Nat.toDigits 10 c.toNat ++ operatorOut_loop 1 cs
        = Nat.toDigits 10 (sectionsValue (c :: cs)).toNat := by
      rcases eq_or_lt_of_le hc.1 with h0 | hpos
      · subst h0
        have : cs = [] := by
          have := hz rfl
          simpa using this
        subst this
        rfl
      · have hnat : ((c.toNat : Nat) : Int) = c := Int.toNat_of_nonneg hc.1
        have := operatorOut_loop_numeral cs 1 c.toNat (by decide) (by omega) hcs
        rw [hnat] at this
        simpa [sectionsValue] using this
    refine ⟨?_, c, cs, rfl, ?_, ?_⟩
    · simp only [operatorOut, hsign, hfirst, List.append_assoc]
      rw [← List.append_assoc (Nat.toDigits 10 c.toNat), hval]
    · simp only [operatorOut, hsign, hfirst, List.append_assoc]
      rw [operatorOut_loop_padded cs 1 (by decide) hcs]
    · intro d hd
      have hd' := hcs d hd
      rw [setwFill_toDigits 9 d.toNat (by decide) (by omega)]
      exact fixedDigits_length 9 _

/-- The output of the valid negative value `[12, 5, 0, 123456789]`. -/
theorem operatorOut_exact_decimal_witness :
    operatorOut ⟨[12, 5, 0, 123456789], false⟩
      = String.mk ((if false then [] else ['-'])
          ++ Nat.toDigits 10 (sectionsValue [12, 5, 0, 123456789]).toNat ++ ['\n']) ∧
    ∃ (c : Int) (cs : List Int), [12, 5, 0, 123456789] = c :: cs ∧
      operatorOut ⟨[12, 5, 0, 123456789], false⟩
        = String.mk ((if false then [] else ['-'])
            ++ Nat.toDigits 10 c.toNat
            ++ (cs.map fun d => setwFill 9 '0' (Nat.toDigits 10 d.toNat)).flatten
            ++ ['\n']) ∧
      ∀ d ∈ cs, (setwFill 9 '0' (Nat.toDigits 10 d.toNat)).length = 9 :=
  operatorOut_exact_decimal ⟨[12, 5, 0, 123456789], false⟩ (by decide)

/-! ## Multiplication by one section -/

theorem sectionsValue_append_singleton (l : List Int) (c : Int) :
    sectionsValue (l ++ [c]) = sectionsValue l * 1000000000 + c := by
  simp [sectionsValue, List.foldl_append]

/-- One iteration of `multipleWithInt` on values in range: no conversion
changes a value, and the carry stays in range. -/
theorem multipleWithInt_step {x k q : Int} (hx0 : 0 ≤ x) (hx1 : x ≤ 999999999)
    (hk0 : 0 ≤ k) (hk1 : k ≤ 999999999) (hq0 : 0 ≤ q) (hq1 : q ≤ 999999999) :
    wrap64 (wrap64 (x * k) + q) = x * k + q ∧
    wrap32 (Int.tmod (x * k + q) (MAX_9BIT_INT_VALUE + 1)) = (x * k + q) % 1000000000 ∧
    wrap32 (Int.tdiv (x * k + q) (MAX_9BIT_INT_VALUE + 1)) = (x * k + q) / 1000000000 ∧
    0 ≤ (x * k + q) / 1000000000 ∧ (x * k + q) / 1000000000 ≤ 999999999 ∧
    0 ≤ (x * k + q) % 1000000000 ∧ (x * k + q) % 1000000000 ≤ 999999999 := by
  have hp0 : 0 ≤ x * k := mul_nonneg hx0 hk0
  have hp1 : x * k ≤ 999999999 * 999999999 := mul_le_mul hx1 hk1 hk0 (by decide)
  have hB : MAX_9BIT_INT_VALUE + 1 = 1000000000 := by decide
  have h1 : wrap64 (x * k) = x * k := wrap64_eq_self (by omega) (by omega)
  have h2 : wrap64 (x * k + q) = x * k + q := wrap64_eq_self (by omega) (by omega)
  have hd : Int.tdiv (x * k + q) 1000000000 = (x * k + q) / 1000000000 :=
    Int.tdiv_eq_ediv (by omega) (by decide)
  have hm : Int.tmod (x * k + q) 1000000000 = (x * k + q) % 1000000000 :=
    Int.tmod_eq_emod (by omega) (by decide)
  rw [h1, h2, hB, hd, hm]
  refine ⟨rfl, wrap32_eq_self (by omega) (by omega), wrap32_eq_self (by omega) (by omega),
    by omega, by omega, by omega, by omega⟩

/-- The loop of `multipleWithInt` on sections in range, a multiplier in
`[0, 999999999]` and a carry in range: the sections it puts in front of `t_res`
are in range and denote multiplicand times multiplier plus carry; their front is
not zero when the multiplier is positive and the multiplicand's front is not
zero. -/
theorem multipleWithInt_loop_spec (xs : List Int) :
    ∀ (k q : Int) (res : List Int), xs ≠ [] →
      (∀ x ∈ xs, 0 ≤ x ∧ x ≤ 999999999) →
      0 ≤ k → k ≤ 999999999 → 0 ≤ q → q ≤ 999999999 →
      ∃ pre, multipleWithInt_loop xs k q res = pre ++ res ∧ pre ≠ [] ∧
        (∀ c ∈ pre, 0 ≤ c ∧ c ≤ 999999999) ∧
        sectionsValue pre = sectionsValue xs.reverse * k + q ∧
        (0 < k → xs.getLast? ≠ some 0 → pre.head? ≠ some 0) := by
  induction xs with
  | nil => intro _ _ _ h; exact absurd rfl h
  | cons x xs ih =>
    intro k q res _ hr hk0 hk1 hq0 hq1
    have hx := hr x (List.mem_cons_self x xs)
    obtain ⟨h1, h2, h3, hd0, hd1, hm0, hm1⟩ :=
      multipleWithInt_step hx.1 hx.2 hk0 hk1 hq0 hq1
    have hsplit : (x * k + q) / 1000000000 * 1000000000 + (x * k + q) % 1000000000
        = x * k + q := by omega
    cases xs with
    | nil =>
      simp only [multipleWithInt_loop, h1, h2, h3]
      by_cases hcar : (x * k + q) / 1000000000 > 0
      · refine ⟨[(x * k + q) / 1000000000, (x * k + q) % 1000000000], ?_, by simp, ?_, ?_, ?_⟩
        · simp [hcar]
        · intro c hc
          simp only [List.mem_cons, List.mem_singleton, List.not_mem_nil, or_false] at hc
          rcases hc with rfl | rfl
          · exact ⟨hd0, hd1⟩
          · exact ⟨hm0, hm1⟩
        · simp only [sectionsValue, List.foldl_cons, List.foldl_nil, List.reverse_cons,
            List.reverse_nil, List.nil_append, zero_mul, zero_add]
          omega
        · intro _ _
          simp only [List.head?_cons, ne_eq, Option.some.injEq]
          omega
      · refine ⟨[(x * k + q) % 1000000000], ?_, by simp, ?_, ?_, ?_⟩
        · simp [hcar]
        · intro c hc
          simp only [List.mem_singleton] at hc
          subst hc
          exact ⟨hm0, hm1⟩
        · simp only [sectionsValue, List.foldl_cons, List.foldl_nil, List.reverse_cons,
            List.reverse_nil, List.nil_append, zero_mul, zero_add]
          omega
        · intro hk hl
          have hxne : x ≠ 0 := by simpa using hl
          have hxpos : 0 < x := lt_of_le_of_ne hx.1 (Ne.symm hxne)
          have hpos : 0 < x * k := mul_pos hxpos hk
          simp only [List.head?_cons, ne_eq, Option.some.injEq]
          omega
    | cons y ys =>
      obtain ⟨pre, hpre, hne, hin, hval, hhead⟩ :=
        ih k ((x * k + q) / 1000000000) ((x * k + q) % 1000000000 :: res)
          (by simp) (fun z hz => hr z (List.mem_cons_of_mem x hz)) hk0 hk1 hd0 hd1
      refine ⟨pre ++ [(x * k + q) % 1000000000], ?_, by simp, ?_, ?_, ?_⟩
      · rw [multipleWithInt_loop]
        simp only [h1, h2, h3]
        rw [if_neg (by simp), hpre]
        simp
      · intro c hc
        rcases List.mem_append.mp hc with hc | hc
        · exact hin c hc
        · simp only [List.mem_singleton] at hc
          subst hc
          exact ⟨hm0, hm1⟩
      · rw [sectionsValue_append_singleton, hval, List.reverse_cons x,
          sectionsValue_append_singleton]
        linear_combination hsplit
      · intro hk hl
        have hl' : (y :: ys).getLast? ≠ some 0 := by
          simpa [List.getLast?_cons_cons] using hl
        have := hhead hk hl'
        cases pre with
        | nil => exact absurd rfl hne
        | cons p ps => simpa using this

/-- `multipleWithInt` on a value with sections in range and a multiplier in
`[0, 999999999]`: the result is positive and not empty, its sections are in
range and denote the product; its front is not zero when the multiplier is
positive and the multiplicand's front is not zero. -/
theorem multipleWithInt_spec (L : List Int) (s : Bool) (k : Int) (hne : L ≠ [])
    (hr : ∀ x ∈ L, 0 ≤ x ∧ x ≤ 999999999) (hk0 : 0 ≤ k) (hk1 : k ≤ 999999999) :
    (multipleWithInt ⟨L, s⟩ k).m_isPositive = true ∧
    (multipleWithInt ⟨L, s⟩ k).m_intData ≠ [] ∧
    (∀ c ∈ (multipleWithInt ⟨L, s⟩ k).m_intData, 0 ≤ c ∧ c ≤ 999999999) ∧
    sectionsValue (multipleWithInt ⟨L, s⟩ k).m_intData = sectionsValue L * k ∧
    (0 < k → L.head? ≠ some 0 → (multipleWithInt ⟨L, s⟩ k).m_intData.head? ≠ some 0) := by
  obtain ⟨pre, hpre, hpne, hin, hval, hhead⟩ :=
    multipleWithInt_loop_spec L.reverse k 0 [] (by simpa using hne)
      (fun x hx => hr x (List.mem_reverse.mp hx)) hk0 hk1 (le_refl 0) (by decide)
  simp only [multipleWithInt, hpre, List.append_nil]
  refine ⟨trivial, hpne, hin, ?_, ?_⟩
  · rw [hval, List.reverse_reverse]; ring
  · intro hk hl
    exact hhead hk (by simpa using hl)

/-! ## Power with a one-section base and exponent -/

theorem m_AbsPlus_loop_nil (es : List Int) (q : Int) (done : List Int) :
    m_AbsPlus_loop [] es q done = ([], es, done) := by
  cases es <;> rfl

theorem m_AbsPlus_rest_eq (es : List Int) :
    ∀ l : List Int, m_AbsPlus_rest es l = es.reverse ++ l := by
  induction es with
  | nil => intro l; rfl
  | cons e es ih => intro l; simp [m_AbsPlus_rest, ih]

/-- Adding a list of sections in range to the accumulator `[0]` yields that list. -/
theorem m_AbsPlus_zero_left (X : List Int) (hne : X ≠ [])
    (hr : ∀ x ∈ X, 0 ≤ x ∧ x ≤ 999999999) : m_AbsPlus [0] X = X := by
  rcases List.eq_nil_or_concat X with h | ⟨init, e, h⟩
  · exact absurd h hne
  · subst h
    have he := hr e (by simp)
    have hw : wrap32 e = e := wrap32_eq_self (by omega) (by omega)
    have hB : MAX_9BIT_INT_VALUE + 1 = 1000000000 := by decide
    have hd : Int.tdiv e 1000000000 = 0 := by
      rw [Int.tdiv_eq_ediv he.1 (by decide)]; omega
    have hm : Int.tmod e 1000000000 = e := by
      rw [Int.tmod_eq_emod he.1 (by decide)]; omega
    simp [m_AbsPlus, m_AbsPlus_loop, hw, hB, hd, hm, m_AbsPlus_loop_nil, m_AbsPlus_rest_eq]

/-- The increment `i++` of the loop variable of `pow` below the section bound. -/
theorem plusAssign_one_single {k : Int} (h0 : 0 ≤ k) (h1 : k < 999999999) :
    BigInt.plusAssign ⟨[k], true⟩ BigInt.one = some ⟨[k + 1], true⟩ := by
  have hw : wrap32 (k + 1) = k + 1 := wrap32_eq_self (by omega) (by omega)
  have hB : MAX_9BIT_INT_VALUE + 1 = 1000000000 := by decide
  have hd : Int.tdiv (k + 1) 1000000000 = 0 := by
    rw [Int.tdiv_eq_ediv (by omega) (by decide)]; omega
  have hm : Int.tmod (k + 1) 1000000000 = k + 1 := by
    rw [Int.tmod_eq_emod (by omega) (by decide)]; omega
  simp [BigInt.plusAssign, BigInt.one, m_AbsPlus, m_AbsPlus_loop, hw, hB, hd, hm,
    m_AbsPlus_rest]

/-- The loop test `i < exp` of `pow` on two positive one-section values. -/
theorem lt_single_positive (k e : Int) :
    BigInt.lt ⟨[k], true⟩ ⟨[e], true⟩ = decide (k < e) := by
  by_cases h : k < e
  · simp [BigInt.lt, m_isAbsLittleThan, m_isAbsLittleThan_loop, h]
  · simp [BigInt.lt, m_isAbsLittleThan, m_isAbsLittleThan_loop, h]

/-- `t_res *= *this` for a one-section `*this`: the single partial product. -/
theorem mulAssign_single (L : List Int) (s s' : Bool) (c : Int) (hne : L ≠ [])
    (hr : ∀ x ∈ L, 0 ≤ x ∧ x ≤ 999999999) (hc0 : 0 ≤ c) (hc1 : c ≤ 999999999) :
    BigInt.mulAssign ⟨L, s⟩ ⟨[c], s'⟩ = some (multipleWithInt ⟨L, true⟩ c) := by
  obtain ⟨hpos, hmne, hmr, -, -⟩ := multipleWithInt_spec L true c hne hr hc0 hc1
  have hadd : BigInt.plusAssign BigInt.zero (multipleWithInt ⟨L, true⟩ c)
      = some (multipleWithInt ⟨L, true⟩ c) := by
    have hz := m_AbsPlus_zero_left _ hmne hmr
    simp only [BigInt.plusAssign, BigInt.zero, hpos, if_true, hz]
    rfl
  simp only [BigInt.mulAssign, BigInt.ofList, List.reverse_cons, List.reverse_nil,
    List.nil_append, mulAssign_loop, hadd]

/-- The loop of `pow` for a one-section base `c` and exponent `e`, started at
`i = [k]` with `n` iterations to go: with any fuel above `n` it returns `t_res`
multiplied `n` times by `c`. `P` is any property of section lists that implies
"not empty, sections in range" and that `multipleWithInt` by `c` keeps. -/
theorem pow_loop_single (c e : Int) (hc0 : 0 ≤ c) (hc1 : c ≤ 999999999)
    (he1 : e ≤ 999999999) (P : List Int → Prop)
    (hP : ∀ L, P L → L ≠ [] ∧ ∀ x ∈ L, 0 ≤ x ∧ x ≤ 999999999)
    (hstep : ∀ L, P L → P (multipleWithInt ⟨L, true⟩ c).m_intData) (n : Nat) :
    ∀ (k : Int) (L : List Int) (fuel : Nat), 0 ≤ k → k + n = e → n < fuel → P L →
      pow_loop fuel ⟨[c], true⟩ ⟨[e], true⟩ ⟨[k], true⟩ ⟨L, true⟩
        = some ⟨powSections c n L, true⟩ := by
  induction n with
  | zero =>
    intro k L fuel _ hk hf hL
    cases fuel with
    | zero => exact absurd hf (Nat.lt_irrefl 0)
    | succ fuel =>
      have hlt : ¬ k < e := by simp at hk; omega
      simp [pow_loop, lt_single_positive, hlt, powSections]
  | succ n ih =>
    intro k L fuel hk0 hk hf hL
    cases fuel with
    | zero => exact absurd hf (Nat.not_lt_zero _)
    | succ fuel =>
      have hlt : k < e := by push_cast at hk; omega
      obtain ⟨hne, hr⟩ := hP L hL
      have hmk : multipleWithInt ⟨L, true⟩ c
          = ⟨(multipleWithInt ⟨L, true⟩ c).m_intData, true⟩ := rfl
      rw [pow_loop, lt_single_positive, if_pos (by simpa using hlt)]
      simp only [mulAssign_single L true true c hne hr hc0 hc1,
        plusAssign_one_single hk0 (by omega)]
      rw [hmk]
      exact ih (k + 1) (multipleWithInt ⟨L, true⟩ c).m_intData fuel (by omega)
        (by push_cast at hk; omega) (by omega) (hstep L hL)

/-- Multiplying `n` times by `c` keeps an invariant of the single step and
multiplies the denoted magnitude by `c^n`. -/
theorem powSections_spec (c : Int) (hc0 : 0 ≤ c) (hc1 : c ≤ 999999999)
    (P : List Int → Prop)
    (hP : ∀ L, P L → L ≠ [] ∧ ∀ x ∈ L, 0 ≤ x ∧ x ≤ 999999999)
    (hstep : ∀ L, P L → P (multipleWithInt ⟨L, true⟩ c).m_intData) (n : Nat) :
    ∀ L : List Int, P L →
      P (powSections c n L) ∧ sectionsValue (powSections c n L) = sectionsValue L * c ^ n := by
  induction n with
  | zero => intro L hL; exact ⟨hL, by simp [powSections]⟩
  | succ n ih =>
    intro L hL
    obtain ⟨hne, hr⟩ := hP L hL
    obtain ⟨-, -, -, hval, -⟩ := multipleWithInt_spec L true c hne hr hc0 hc1
    obtain ⟨h1, h2⟩ := ih _ (hstep L hL)
    refine ⟨h1, ?_⟩
    rw [powSections, h2, hval, pow_succ]; ring

/-- From `t_res = 1`, multiplying by a one-section `c` any number of times
leaves a valid section list denoting the power. -/
theorem powSections_one_valid (c : Int) (hc0 : 0 ≤ c) (hc1 : c ≤ 999999999) (n : Nat) :
    ValidSections (powSections c n [1]) ∧ sectionsValue (powSections c n [1]) = c ^ n := by
  rcases eq_or_lt_of_le hc0 with h0 | hpos
  · subst h0
    have h := powSections_spec 0 (le_refl 0) (by decide) (fun L => L = [1] ∨ L = [0])
      (by rintro L (rfl | rfl) <;> decide)
      (by rintro L (rfl | rfl) <;> decide) n [1] (Or.inl rfl)
    refine ⟨?_, by simpa [sectionsValue] using h.2⟩
    rcases h.1 with h1 | h1 <;> rw [h1] <;> decide
  · have h := powSections_spec c hc0 hc1
      (fun L => L ≠ [] ∧ (∀ x ∈ L, 0 ≤ x ∧ x ≤ 999999999) ∧ L.head? ≠ some 0)
      (fun L hL => ⟨hL.1, hL.2.1⟩)
      (fun L hL => by
        obtain ⟨-, h2, h3, -, h5⟩ := multipleWithInt_spec L true c hL.1 hL.2.1 hc0 hc1
        exact ⟨h2, h3, h5 hpos hL.2.2⟩)
      n [1] ⟨by simp, by simp, by simp⟩
    refine ⟨⟨h.1.1, h.1.2.1, fun hz => absurd hz h.1.2.2⟩, by simpa [sectionsValue] using h.2⟩

/-- C7. For every one-section base `c` and exponent `e` in `[0, 999999999]`,
`BigInt(c).pow(BigInt(e))` returns (with any fuel above `e`) a valid positive
value whose sections denote `c^e`; `BigInt(2).pow(BigInt(10))` is rendered `1024`. -/
theorem pow_single_section_exact :
    (∀ c e : Int, 0 ≤ c → c ≤ 999999999 → 0 ≤ e → e ≤ 999999999 →
      ∃ r : BigInt,
        (∀ fuel : Nat, e.toNat < fuel →
          (BigInt.ofLongLong fuel c).bind (fun a =>
            (BigInt.ofLongLong fuel e).bind (fun x => BigInt.pow fuel a x)) = some r) ∧
        ValidSections r.m_intData ∧ r.m_isPositive = true ∧
        sectionsValue r.m_intData = c ^ e.toNat) ∧
    (∀ m : Nat,
      (BigInt.ofLongLong (m + 11) 2).bind (fun a =>
        (BigInt.ofLongLong (m + 11) 10).bind (fun x =>
          (BigInt.pow (m + 11) a x).map operatorOut)) = some "1024\n") := by
  refine ⟨fun c e hc0 hc1 he0 he1 => ?_, fun m => rfl⟩
  obtain ⟨hvalid, hval⟩ := powSections_one_valid c hc0 hc1 e.toNat
  refine ⟨⟨powSections c e.toNat [1], true⟩, fun fuel hf => ?_, hvalid, rfl, hval⟩
  have hnlt : BigInt.lt ⟨[e], true⟩ BigInt.zero = false := by
    rw [BigInt.zero, lt_single_positive]
    simpa using he0
  rw [ofLongLong_nonneg_small fuel c hc0 hc1, ofLongLong_nonneg_small fuel e he0 he1]
  simp only [Option.bind, BigInt.pow, hnlt]
  rcases eq_or_lt_of_le hc0 with h0 | hpos
  · subst h0
    exact pow_loop_single 0 e (le_refl 0) (by decide) he1 (fun L => L = [1] ∨ L = [0])
      (by rintro L (rfl | rfl) <;> decide)
      (by rintro L (rfl | rfl) <;> decide) e.toNat 0 [1] fuel (le_refl 0)
      (by rw [zero_add]; exact Int.toNat_of_nonneg he0) hf (Or.inl rfl)
  · exact pow_loop_single c e hc0 hc1 he1
      (fun L => L ≠ [] ∧ (∀ x ∈ L, 0 ≤ x ∧ x ≤ 999999999) ∧ L.head? ≠ some 0)
      (fun L hL => ⟨hL.1, hL.2.1⟩)
      (fun L hL => by
        obtain ⟨-, h2, h3, -, h5⟩ := multipleWithInt_spec L true c hL.1 hL.2.1 hc0 hc1
        exact ⟨h2, h3, h5 hpos hL.2.2⟩)
      e.toNat 0 [1] fuel (le_refl 0)
      (by rw [zero_add]; exact Int.toNat_of_nonneg he0) hf ⟨by simp, by simp, by simp⟩

/-- The power `999999999 ^ 3`. -/
theorem pow_single_section_exact_witness :
    ∃ r : BigInt,
      (∀ fuel : Nat, (3 : Int).toNat < fuel →
        (BigInt.ofLongLong fuel 999999999).bind (fun a =>
          (BigInt.ofLongLong fuel 3).bind (fun x => BigInt.pow fuel a x)) = some r) ∧
      ValidSections r.m_intData ∧ r.m_isPositive = true ∧
      sectionsValue r.m_intData = 999999999 ^ (3 : Int).toNat :=
  pow_single_section_exact.1 999999999 3 (by decide) (by decide) (by decide) (by decide)

/-! ## Comparison operators derived from `<` and `==` -/

/-- C11 (code defect). `BigInt(0) > BigInt(1)` is true, although 0 is not
greater than 1: `operator >` is the negation of `operator <=`, which requires
`a < b` and `a == b` at once and is false here. (`BigInt(0) > BigInt(-1)` is
true.) -/
theorem gt_zero_one_is_true :
    ∀ fuel : Nat,
      (BigInt.ofLongLong fuel 0).bind (fun a =>
        (BigInt.ofLongLong fuel 1).map (fun b => BigInt.gt a b)) = some true ∧
      (BigInt.ofLongLong fuel 0).bind (fun a =>
        (BigInt.ofLongLong fuel (-1)).map (fun b => BigInt.gt a b)) = some true ∧
      ¬ (sectionsValue [0] > sectionsValue [1]) := by
  intro fuel
  exact ⟨rfl, rfl, by decide⟩

theorem m_isAbsEqualTo_loop_not_little (m : List Int) :
    ∀ e : List Int, m_isAbsEqualTo_loop m e = true → m_isAbsLittleThan_loop m e = false := by
  induction m with
  | nil => intro e _; cases e <;> rfl
  | cons x m ih =>
    intro e h
    cases e with
    | nil => rfl
    | cons y e =>
      by_cases hxy : x = y
      · subst hxy
        simp only [m_isAbsEqualTo_loop, ne_eq, not_true_eq_false, if_false] at h
        simp only [m_isAbsLittleThan_loop, lt_irrefl, gt_iff_lt, if_false]
        exact ih e h
      · simp [m_isAbsEqualTo_loop, hxy] at h

/-- Lists that `m_isAbsEqualTo` accepts are not ordered by `m_isAbsLittleThan`. -/
theorem m_isAbsEqualTo_not_little (m e : List Int) (h : m_isAbsEqualTo m e = true) :
    m_isAbsLittleThan m e = false := by
  unfold m_isAbsEqualTo at h
  by_cases hl : m.length = e.length
  · simp only [ne_eq, hl, not_true_eq_false, if_false] at h
    simp [m_isAbsLittleThan, hl, m_isAbsEqualTo_loop_not_little m e h]
  · simp [hl] at h

/-- C20 (counterexample). `BigInt(-5) <= BigInt(-5)` evaluates to true, so
`operator <=` is not always false. -/
theorem le_not_always_false :
    (BigInt.ofLongLong 0 (-5)).bind (fun a =>
      (BigInt.ofLongLong 0 (-5)).map (fun b => BigInt.le a b)) = some true := by
  rfl

/-- C20 (amended). `a <= b`, defined as `(a < b) && (a == b)`, is true exactly
when both sign flags are negative and `m_isAbsEqualTo` accepts the two lists
(equal negative values); in every other case it is false. -/
theorem le_true_iff_equal_negative (a b : BigInt) :
    BigInt.le a b
      = (!a.m_isPositive && !b.m_isPositive && m_isAbsEqualTo a.m_intData b.m_intData) := by
  obtain ⟨la, sa⟩ := a
  obtain ⟨lb, sb⟩ := b
  cases hq : m_isAbsEqualTo la lb
  · cases sa <;> cases sb <;> simp [BigInt.le, BigInt.eq, hq]
  · have hl := m_isAbsEqualTo_not_little la lb hq
    cases sa <;> cases sb <;> simp [BigInt.le, BigInt.lt, BigInt.eq, hq, hl]

/-! ## Algebraic identities that fail -/

/-- C13 (code defect). `BigInt(5) + BigInt(-5)` is the empty section list with a
negative sign, which `==` does not accept as `BigInt(0)`: `m_AbsMinus` pops
every zero section, the last one included. -/
theorem plus_inverse_is_empty :
    ∀ fuel : Nat,
      (BigInt.ofLongLong fuel 5).bind (fun a =>
        BigInt.plus a (BigInt.ofList a.m_intData (!a.m_isPositive)))
        = some ⟨[], false⟩ ∧
      (BigInt.ofLongLong fuel 5).bind (fun a =>
        (BigInt.plus a (BigInt.ofList a.m_intData (!a.m_isPositive))).bind (fun s =>
          (BigInt.ofLongLong fuel 0).map (fun z => BigInt.eq s z)))
        = some false := by
  intro fuel
  exact ⟨rfl, rfl⟩

/-- C14 (code defect). `[1, 0] * BigInt(0)` is `[0, 0]`, which `==` does not
accept as `BigInt(0)` (the lists differ in length): `multipleWithInt` by 0
returns one zero section per section of the multiplicand. (A one-section value
times `BigInt(0)` is `[0]`.) -/
theorem mul_zero_two_sections :
    ∀ fuel : Nat,
      ValidSections [1, 0] ∧
      (BigInt.ofLongLong fuel 0).bind (fun z => BigInt.mul ⟨[1, 0], true⟩ z)
        = some ⟨[0, 0], true⟩ ∧
      (BigInt.ofLongLong fuel 0).bind (fun z =>
        (BigInt.mul ⟨[1, 0], true⟩ z).map (fun p => BigInt.eq p z)) = some false ∧
      (BigInt.ofLongLong fuel 0).bind (fun z =>
        (BigInt.mul ⟨[7], false⟩ z).map (fun p => BigInt.eq p z)) = some true := by
  intro fuel
  exact ⟨by decide, rfl, rfl, rfl⟩

/-! ## The carry into a new front section -/

/-- C16 (counterexample). `BigInt(999999999) + BigInt(1)` is not rendered as
`1000000001`. -/
theorem plus_carry_not_1000000001 :
    (BigInt.ofLongLong 0 999999999).bind (fun a =>
      (BigInt.ofLongLong 0 1).bind (fun b => (BigInt.plus a b).map operatorOut))
      ≠ some "1000000001\n" := by
  have h : (BigInt.ofLongLong 0 999999999).bind (fun a =>
      (BigInt.ofLongLong 0 1).bind (fun b => (BigInt.plus a b).map operatorOut))
      = some "1000000000\n" := rfl
  rw [h]
  decide

/-- C16 (amended). `BigInt(999999999) + BigInt(1)` is `[1, 0]`, rendered as
`1000000000`: the carry out of the only section creates a new front section of
value 1. -/
theorem plus_carry_new_front_section :
    ∀ fuel : Nat,
      (BigInt.ofLongLong fuel 999999999).bind (fun a =>
        (BigInt.ofLongLong fuel 1).bind (fun b => BigInt.plus a b))
        = some ⟨[1, 0], true⟩ ∧
      (BigInt.ofLongLong fuel 999999999).bind (fun a =>
        (BigInt.ofLongLong fuel 1).bind (fun b => (BigInt.plus a b).map operatorOut))
        = some "1000000000\n" := by
  intro fuel
  exact ⟨rfl, rfl⟩

/-! ## Construction does not terminate above one section -/

/-- C17 (code defect). For every value `1000000000 + k` the loop of
`m_transformLL` does not end within any number of iterations, so the
constructor does not return; the same holds for the negated values. -/
theorem construction_never_returns :
    ∀ (fuel k : Nat),
      BigInt.m_transformLL fuel (1000000000 + (k : Int)) = none ∧
      BigInt.ofLongLong fuel (1000000000 + (k : Int)) = none ∧
      BigInt.ofLongLong fuel (-1000000000) = none := by
  intro fuel k
  have hk : (0 : Int) ≤ (k : Int) := Int.ofNat_nonneg k
  have hM : MAX_9BIT_INT_VALUE = 999999999 := rfl
  have h1 : BigInt.m_transformLL fuel (1000000000 + (k : Int)) = none := by
    unfold BigInt.m_transformLL
    rw [if_neg (by omega)]
    exact m_transformLL_loop_none fuel _ _ _ (by omega)
  have h2 : BigInt.m_transformLL fuel 1000000000 = none := by
    unfold BigInt.m_transformLL
    rw [if_neg (by decide)]
    exact m_transformLL_loop_none fuel _ _ _ (by decide)
  refine ⟨h1, ?_, ?_⟩
  · have hpos : (1000000000 + (k : Int)) ≥ 0 := by omega
    simp [BigInt.ofLongLong, hpos, h1]
  · have hw : wrap64 (-1 * (-1000000000)) = 1000000000 := by decide
    simp only [BigInt.ofLongLong]
    rw [if_neg (by decide), hw, h2]
    rfl

/-! ## Multiplication by one section: exactness and ranges -/

theorem multipleWithInt_intermediates_bounds (xs : List Int) :
    ∀ (k q : Int), (∀ x ∈ xs, 0 ≤ x ∧ x ≤ 999999999) →
      0 ≤ k → k ≤ 999999999 → 0 ≤ q → q ≤ 999999999 →
      ∀ p ∈ multipleWithInt_intermediates xs k q,
        (0 ≤ p.1 ∧ p.1 ≤ 999999999000000000) ∧ (0 ≤ p.2 ∧ p.2 ≤ 999999999) := by
  induction xs with
  | nil => intro _ _ _ _ _ _ _ p hp; simp [multipleWithInt_intermediates] at hp
  | cons x xs ih =>
    intro k q hr hk0 hk1 hq0 hq1 p hp
    have hx := hr x (List.mem_cons_self x xs)
    obtain ⟨h1, -, -, hd0, hd1, -, -⟩ := multipleWithInt_step hx.1 hx.2 hk0 hk1 hq0 hq1
    have hp0 : 0 ≤ x * k := mul_nonneg hx.1 hk0
    have hp1 : x * k ≤ 999999999 * 999999999 := mul_le_mul hx.2 hk1 hk0 (by decide)
    have hB : MAX_9BIT_INT_VALUE + 1 = 1000000000 := by decide
    have hd : Int.tdiv (x * k + q) (MAX_9BIT_INT_VALUE + 1) = (x * k + q) / 1000000000 := by
      rw [hB]; exact Int.tdiv_eq_ediv (by omega) (by decide)
    have hw : wrap32 ((x * k + q) / 1000000000) = (x * k + q) / 1000000000 :=
      wrap32_eq_self (by omega) (by omega)
    simp only [multipleWithInt_intermediates, h1, hd, hw, List.mem_cons] at hp
    rcases hp with rfl | hp
    · exact ⟨⟨by simp only; omega, by simp only; omega⟩, ⟨hd0, hd1⟩⟩
    · exact ih k _ (fun z hz => hr z (List.mem_cons_of_mem x hz)) hk0 hk1 hd0 hd1 p hp

/-- C19. For a non-empty list of sections in `[0, 999999999]` and a multiplier
`k` in `[0, 999999999]`, `multipleWithInt` returns sections in `[0, 999999999]`
that denote the multiplicand times `k`; every `section * k + carry` of the run
lies in the signed 64-bit range and every carry, before its conversion to
`int`, in the signed 32-bit range. -/
theorem multipleWithInt_exact_no_overflow (x : List Int) (s : Bool) (k : Int)
    (hne : x ≠ []) (hr : ∀ c ∈ x, 0 ≤ c ∧ c ≤ 999999999)
    (hk0 : 0 ≤ k) (hk1 : k ≤ 999999999) :
    (multipleWithInt ⟨x, s⟩ k).m_intData ≠ [] ∧
    (∀ c ∈ (multipleWithInt ⟨x, s⟩ k).m_intData, 0 ≤ c ∧ c ≤ 999999999) ∧
    sectionsValue (multipleWithInt ⟨x, s⟩ k).m_intData = sectionsValue x * k ∧
    ∀ p ∈ multipleWithInt_intermediates x.reverse k 0,
      (-9223372036854775808 ≤ p.1 ∧ p.1 ≤ 9223372036854775807) ∧
      (-2147483648 ≤ p.2 ∧ p.2 ≤ 2147483647) := by
  obtain ⟨-, h2, h3, h4, -⟩ := multipleWithInt_spec x s k hne hr hk0 hk1
  refine ⟨h2, h3, h4, fun p hp => ?_⟩
  have hb := multipleWithInt_intermediates_bounds x.reverse k 0
    (fun c hc => hr c (List.mem_reverse.mp hc)) hk0 hk1 (le_refl 0) (by decide) p hp
  omega

/-- The multiplicand `[999999999, 999999999]` and the multiplier `999999999`. -/
theorem multipleWithInt_exact_no_overflow_witness :
    (multipleWithInt ⟨[999999999, 999999999], true⟩ 999999999).m_intData ≠ [] ∧
    (∀ c ∈ (multipleWithInt ⟨[999999999, 999999999], true⟩ 999999999).m_intData,
      0 ≤ c ∧ c ≤ 999999999) ∧
    sectionsValue (multipleWithInt ⟨[999999999, 999999999], true⟩ 999999999).m_intData
      = sectionsValue [999999999, 999999999] * 999999999 ∧
    ∀ p ∈ multipleWithInt_intermediates [999999999, 999999999].reverse 999999999 0,
      (-9223372036854775808 ≤ p.1 ∧ p.1 ≤ 9223372036854775807) ∧
      (-2147483648 ≤ p.2 ∧ p.2 ≤ 2147483647) :=
  multipleWithInt_exact_no_overflow [999999999, 999999999] true 999999999
    (by decide) (by decide) (by decide) (by decide)

/-! ## Adding zero -/

theorem m_AbsPlus_loop_nil_right (ms : List Int) (q : Int) (done : List Int) :
    m_AbsPlus_loop ms [] q done = (ms, [], done) := by
  cases ms <;> rfl

/-- Adding `[0]` to a list of sections in range leaves the list unchanged. -/
theorem m_AbsPlus_zero_right (a : List Int) (hne : a ≠ [])
    (hr : ∀ x ∈ a, 0 ≤ x ∧ x ≤ 999999999) : m_AbsPlus a [0] = a := by
  rcases List.eq_nil_or_concat a with h | ⟨init, x, h⟩
  · exact absurd h hne
  · subst h
    have hx := hr x (by simp)
    have hw : wrap32 x = x := wrap32_eq_self (by omega) (by omega)
    have hB : MAX_9BIT_INT_VALUE + 1 = 1000000000 := by decide
    have hd : Int.tdiv x 1000000000 = 0 := by
      rw [Int.tdiv_eq_ediv hx.1 (by decide)]; omega
    have hm : Int.tmod x 1000000000 = x := by
      rw [Int.tmod_eq_emod hx.1 (by decide)]; omega
    simp [m_AbsPlus, m_AbsPlus_loop, hw, hB, hd, hm, m_AbsPlus_loop_nil_right,
      m_AbsPlus_rest]

/-- No non-empty list of non-negative sections is below `[0]`. -/
theorem m_isAbsLittleThan_zero_right (a : List Int) (hne : a ≠ [])
    (hr : ∀ x ∈ a, 0 ≤ x ∧ x ≤ 999999999) : m_isAbsLittleThan a [0] = false := by
  cases a with
  | nil => exact absurd rfl hne
  | cons x xs =>
    have hx := hr x (List.mem_cons_self x xs)
    cases xs with
    | nil =>
      have h1 : ¬ x < 0 := not_lt.mpr hx.1
      by_cases h2 : x > 0
      · simp [m_isAbsLittleThan, m_isAbsLittleThan_loop, h1, h2]
      · simp [m_isAbsLittleThan, m_isAbsLittleThan_loop, h1, h2]
    | cons y ys => simp [m_isAbsLittleThan]

theorem m_AbsMinus_loop_nil_right (ms done : List Int) :
    m_AbsMinus_loop ms [] done = some (ms, done) := by
  cases ms <;> rfl

/-- `m_AbsMinus` when the receiver is not below the operand: no swap. -/
theorem m_AbsMinus_no_swap (m e : List Int) (h : m_isAbsLittleThan m e = false) :
    m_AbsMinus m e
      = match m_AbsMinus_loop m.reverse e.reverse [] with
        | none => none
        | some (ms, done) =>
          if ms = [] then some (clearZeroSections done) else some (ms.reverse ++ done) := by
  simp [m_AbsMinus, h]

/-- `m_AbsMinus` when the receiver is below the operand: the two lists are swapped. -/
theorem m_AbsMinus_swap (m e : List Int) (h : m_isAbsLittleThan m e = true) :
    m_AbsMinus m e
      = match m_AbsMinus_loop e.reverse m.reverse [] with
        | none => none
        | some (ms, done) =>
          if ms = [] then some (clearZeroSections done) else some (ms.reverse ++ done) := by
  simp [m_AbsMinus, h]

/-- Subtracting `[0]` from a valid list other than `[0]` leaves the list unchanged. -/
theorem m_AbsMinus_zero_right (a : List Int) (h : ValidSections a) (h0 : a ≠ [0]) :
    m_AbsMinus a [0] = some a := by
  obtain ⟨hne, hr, -⟩ := h
  rw [m_AbsMinus_no_swap a [0] (m_isAbsLittleThan_zero_right a hne hr)]
  rcases List.eq_nil_or_concat a with h | ⟨init, x, h⟩
  · exact absurd h hne
  · subst h
    have hx := hr x (by simp)
    have hw : wrap32 x = x := wrap32_eq_self (by omega) (by omega)
    have hn : ¬ x < 0 := not_lt.mpr hx.1
    cases init with
    | nil =>
      have hx0 : ¬ (0 = x) := by
        intro hz; apply h0; simp [← hz]
      simp [m_AbsMinus_loop, hn, hw, clearZeroSections, hx0]
    | cons y ys =>
      simp [m_AbsMinus_loop, hn, hw, m_AbsMinus_loop_nil_right]

theorem m_isAbsEqualTo_loop_refl (a : List Int) : m_isAbsEqualTo_loop a a = true := by
  induction a with
  | nil => rfl
  | cons x xs ih => simp [m_isAbsEqualTo_loop, ih]

/-- `operator ==` accepts a value compared with itself. -/
theorem eq_refl_true (a : BigInt) : BigInt.eq a a = true := by
  simp [BigInt.eq, m_isAbsEqualTo, m_isAbsEqualTo_loop_refl]

/-- C12 (code defect). For the valid section list `[0]` with a negative sign,
`a + BigInt(0)` is the empty list with a positive sign and `a + BigInt(0) == a`
is false: `m_AbsMinus` pops the only zero section. -/
theorem plus_zero_fails_at_negative_zero :
    ∀ fuel : Nat,
      ValidSections [0] ∧
      (BigInt.ofLongLong fuel 0).bind (fun z => BigInt.plus ⟨[0], false⟩ z)
        = some ⟨[], true⟩ ∧
      (BigInt.ofLongLong fuel 0).bind (fun z =>
        (BigInt.plus ⟨[0], false⟩ z).map (fun s => BigInt.eq s ⟨[0], false⟩))
        = some false := by
  intro fuel
  exact ⟨by decide, rfl, rfl⟩

/-- For every value `a` with valid sections of any number and either sign, other
than the negative zero, `a + BigInt(0)` is `a` itself, sign flag and section
list, and `a + BigInt(0) == a` is true. -/
theorem plus_zero_identity (a : BigInt) (h : ValidBigInt a) :
    ∀ fuel : Nat,
      (BigInt.ofLongLong fuel 0).bind (fun z => BigInt.plus a z) = some a ∧
      (BigInt.ofLongLong fuel 0).bind (fun z =>
        (BigInt.plus a z).map (fun s => BigInt.eq s a)) = some true := by
  intro fuel
  obtain ⟨l, pos⟩ := a
  obtain ⟨hv, hz⟩ := h
  have hsum : BigInt.plus ⟨l, pos⟩ BigInt.zero = some ⟨l, pos⟩ := by
    cases pos with
    | true =>
      simp [BigInt.plus, BigInt.plusAssign, BigInt.zero, m_AbsPlus_zero_right l hv.1 hv.2.1]
    | false =>
      have h0 : l ≠ [0] := fun hl => by simpa using hz hl
      simp [BigInt.plus, BigInt.plusAssign, BigInt.zero, m_AbsMinus_zero_right l hv h0,
        m_isAbsLittleThan_zero_right l hv.1 hv.2.1]
  rw [ofLongLong_zero]
  simp only [Option.bind, hsum, Option.map, eq_refl_true]
  exact ⟨trivial, trivial⟩

/-! ## The square by `pow` and by `*` -/

theorem replicate_zero_append_cons (j : Nat) (res : List Int) :
    List.replicate j (0 : Int) ++ 0 :: res = 0 :: (List.replicate j 0 ++ res) := by
  induction j with
  | zero => rfl
  | succ j ih => simp [List.replicate_succ, ih]

/-- `multipleWithInt` of `1` followed by `j` zero sections: its loop puts the
multiplier in front of `j` zero sections. -/
theorem multipleWithInt_loop_unit (e : Int) (he0 : 0 ≤ e) (he1 : e ≤ 999999999) (j : Nat) :
    ∀ res : List Int,
      multipleWithInt_loop (List.replicate j 0 ++ [1]) e 0 res
        = e :: (List.replicate j 0 ++ res) := by
  have hB : MAX_9BIT_INT_VALUE + 1 = 1000000000 := by decide
  induction j with
  | zero =>
    intro res
    obtain ⟨h1, h2, h3, -, -, -, -⟩ :=
      multipleWithInt_step (x := 1) (k := e) (q := 0) (by decide) (by decide) he0 he1
        (le_refl 0) (by decide)
    have hm : (1 * e + 0) % 1000000000 = e := by omega
    have hd : (1 * e + 0) / 1000000000 = 0 := by omega
    simp only [List.replicate_zero, List.nil_append, multipleWithInt_loop, h1, h2, h3, hm, hd]
    simp
  | succ j ih =>
    intro res
    obtain ⟨h1, h2, h3, -, -, -, -⟩ :=
      multipleWithInt_step (x := 0) (k := e) (q := 0) (le_refl 0) (by decide) he0 he1
        (le_refl 0) (by decide)
    have hm : (0 * e + 0) % 1000000000 = 0 := by omega
    have hd : (0 * e + 0) / 1000000000 = 0 := by omega
    rw [List.replicate_succ, List.cons_append, multipleWithInt_loop]
    simp only [h1, h2, h3, hm, hd]
    rw [if_neg (by simp), ih, replicate_zero_append_cons]
    rfl

/-- The first loop of `m_AbsPlus` over receiver sections in range that meet zero
sections of the operand with no carry: every section is rewritten unchanged. -/
theorem m_AbsPlus_loop_zeros (ms : List Int) :
    ∀ (es acc : List Int), (∀ x ∈ ms, 0 ≤ x ∧ x ≤ 999999999) →
      m_AbsPlus_loop ms (List.replicate ms.length 0 ++ es) 0 acc
        = ([], es, ms.reverse ++ acc) := by
  have hB : MAX_9BIT_INT_VALUE + 1 = 1000000000 := by decide
  induction ms with
  | nil => intro es acc _; simp [m_AbsPlus_loop_nil]
  | cons m ms ih =>
    intro es acc hr
    have hm := hr m (List.mem_cons_self m ms)
    have hw : wrap32 (m + 0 + 0) = m := by
      rw [add_zero, add_zero]; exact wrap32_eq_self (by omega) (by omega)
    have hd : Int.tdiv m 1000000000 = 0 := by
      rw [Int.tdiv_eq_ediv hm.1 (by decide)]; omega
    have hmod : Int.tmod m 1000000000 = m := by
      rw [Int.tmod_eq_emod hm.1 (by decide)]; omega
    rw [List.length_cons, List.replicate_succ, List.cons_append, m_AbsPlus_loop]
    simp only [hw, hB, hd, hmod]
    rw [if_neg (by simp), ih es (m :: acc) (fun x hx => hr x (List.mem_cons_of_mem m hx))]
    simp

/-- Adding the partial product `[e, 0, ..., 0]`, one section longer than the
accumulator, puts `e` in front of the accumulator. -/
theorem m_AbsPlus_shifted (done : List Int) (e : Int)
    (hr : ∀ x ∈ done, 0 ≤ x ∧ x ≤ 999999999) :
    m_AbsPlus done (e :: List.replicate done.length 0) = e :: done := by
  have h := m_AbsPlus_loop_zeros done.reverse [e] []
    (fun x hx => hr x (List.mem_reverse.mp hx))
  rw [List.length_reverse] at h
  simp [m_AbsPlus, List.reverse_replicate, h, m_AbsPlus_rest]

/-- The loop of `operator *=` for the receiver `1`, after its first iteration:
the operand's remaining sections are put in front of the accumulator. -/
theorem mulAssign_loop_unit (es : List Int) :
    ∀ done : List Int, (∀ x ∈ done, 0 ≤ x ∧ x ≤ 999999999) →
      (∀ x ∈ es, 0 ≤ x ∧ x ≤ 999999999) →
      mulAssign_loop es ⟨done, true⟩ ⟨1 :: List.replicate done.length 0, true⟩
        = some ⟨es.reverse ++ done, true⟩ := by
  induction es with
  | nil => intro done _ _; rfl
  | cons e es ih =>
    intro done hd hes
    have he := hes e (List.mem_cons_self e es)
    have hmul : multipleWithInt ⟨1 :: List.replicate done.length 0, true⟩ e
        = ⟨e :: List.replicate done.length 0, true⟩ := by
      simp [multipleWithInt, List.reverse_replicate,
        multipleWithInt_loop_unit e he.1 he.2 done.length []]
    have hadd : BigInt.plusAssign ⟨done, true⟩ ⟨e :: List.replicate done.length 0, true⟩
        = some ⟨e :: done, true⟩ := by
      simp [BigInt.plusAssign, m_AbsPlus_shifted done e hd]
    have hshift : (1 :: List.replicate done.length (0 : Int)) ++ [0]
        = 1 :: List.replicate (e :: done).length 0 := by
      simp [List.replicate_succ']
    rw [mulAssign_loop, hmul, hadd]
    simp only [hshift]
    rw [ih (e :: done)
      (fun x hx => by
        rcases List.mem_cons.mp hx with rfl | hx
        · exact he
        · exact hd x hx)
      (fun x hx => hes x (List.mem_cons_of_mem e hx))]
    simp

/-- `BigInt(1) *= a` for sections in range: the receiver becomes `a`'s section
list with a positive sign. -/
theorem mulAssign_one_left (a : List Int) (s s' : Bool) (hne : a ≠ [])
    (hr : ∀ x ∈ a, 0 ≤ x ∧ x ≤ 999999999) :
    BigInt.mulAssign ⟨[1], s⟩ ⟨a, s'⟩ = some ⟨a, true⟩ := by
  rcases List.eq_nil_or_concat a with h | ⟨init, e, h⟩
  · exact absurd h hne
  · rw [List.concat_eq_append] at h
    subst h
    have he := hr e (by simp)
    have hin : ∀ x ∈ init.reverse, 0 ≤ x ∧ x ≤ 999999999 :=
      fun x hx => hr x (by simp [List.mem_reverse.mp hx])
    have hmul : multipleWithInt ⟨[1], true⟩ e = ⟨[e], true⟩ := by
      have := multipleWithInt_loop_unit e he.1 he.2 0 []
      simpa [multipleWithInt] using this
    have hadd : BigInt.plusAssign BigInt.zero ⟨[e], true⟩ = some ⟨[e], true⟩ := by
      have hz := m_AbsPlus_zero_left [e] (by simp) (by simpa using he)
      simp [BigInt.plusAssign, BigInt.zero, hz]
    have hloop := mulAssign_loop_unit init.reverse [e] (by simpa using he) hin
    simp only [BigInt.mulAssign, BigInt.ofList, List.reverse_append, List.reverse_cons,
      List.reverse_nil, List.nil_append, List.singleton_append, mulAssign_loop, hmul, hadd]
    simp only [List.length_singleton, List.replicate_one, List.reverse_reverse] at hloop
    rw [hloop]

/-- C15. For every value `a` with valid sections, of either sign, `a * a` returns
a value `r`, `a.pow(BigInt(2))` returns the same `r` (with any fuel above 2), and
`a.pow(BigInt(2)) == a * a` is true. -/
theorem pow_two_eq_mul_self (a : BigInt) (h : ValidSections a.m_intData) :
    ∃ r : BigInt, BigInt.mul a a = some r ∧
      (∀ fuel : Nat, 2 < fuel →
        (BigInt.ofLongLong fuel 2).bind (fun two => BigInt.pow fuel a two) = some r) ∧
      (∀ fuel : Nat, 2 < fuel →
        (BigInt.ofLongLong fuel 2).bind (fun two =>
          (BigInt.pow fuel a two).bind (fun p =>
            (BigInt.mul a a).map (fun q => BigInt.eq p q))) = some true) := by
  obtain ⟨l, s⟩ := a
  obtain ⟨hne, hr, -⟩ := h
  obtain ⟨r', hr', -⟩ := mulAssign_loop_positive l.reverse BigInt.zero (BigInt.ofList l true) rfl
  have hmul : BigInt.mulAssign ⟨l, true⟩ ⟨l, s⟩ = some ⟨r'.m_intData, r'.m_isPositive⟩ := by
    simp only [BigInt.mulAssign]
    rw [hr']
  have hself : BigInt.mul ⟨l, s⟩ ⟨l, s⟩ = some ⟨r'.m_intData, r'.m_isPositive⟩ := hmul
  have hpow : ∀ fuel : Nat, 2 < fuel →
      BigInt.pow fuel ⟨l, s⟩ ⟨[2], true⟩ = some ⟨r'.m_intData, r'.m_isPositive⟩ := by
    intro fuel hf
    obtain ⟨m, rfl⟩ : ∃ m, fuel = m + 3 := ⟨fuel - 3, by omega⟩
    have hnlt : BigInt.lt ⟨[2], true⟩ BigInt.zero = false := by decide
    have h02 : BigInt.lt BigInt.zero ⟨[2], true⟩ = true := by decide
    have h12 : BigInt.lt ⟨[1], true⟩ ⟨[2], true⟩ = true := by decide
    have h22 : BigInt.lt ⟨[2], true⟩ ⟨[2], true⟩ = false := by decide
    have hi0 : BigInt.plusAssign BigInt.zero BigInt.one = some ⟨[1], true⟩ := by decide
    have hi1 : BigInt.plusAssign ⟨[1], true⟩ BigInt.one = some ⟨[2], true⟩ := by decide
    have hfirst : BigInt.mulAssign BigInt.one ⟨l, s⟩ = some ⟨l, true⟩ :=
      mulAssign_one_left l true s hne hr
    unfold BigInt.pow
    rw [if_neg (by simp [hnlt])]
    rw [pow_loop, if_pos h02]
    simp only [hfirst, hi0]
    rw [pow_loop, if_pos h12]
    simp only [hmul, hi1]
    rw [pow_loop, if_neg (by simp [h22])]
  refine ⟨⟨r'.m_intData, r'.m_isPositive⟩, hself, fun fuel hf => ?_, fun fuel hf => ?_⟩
  · rw [ofLongLong_nonneg_small fuel 2 (by decide) (by decide)]
    exact hpow fuel hf
  · rw [ofLongLong_nonneg_small fuel 2 (by decide) (by decide)]
    simp only [Option.bind, hpow fuel hf, hself, Option.map, eq_refl_true]

/-- The negative three-section value `[3, 0, 999999999]`. -/
theorem pow_two_eq_mul_self_witness :
    ∃ r : BigInt, BigInt.mul ⟨[3, 0, 999999999], false⟩ ⟨[3, 0, 999999999], false⟩ = some r ∧
      (∀ fuel : Nat, 2 < fuel →
        (BigInt.ofLongLong fuel 2).bind (fun two =>
          BigInt.pow fuel ⟨[3, 0, 999999999], false⟩ two) = some r) ∧
      (∀ fuel : Nat, 2 < fuel →
        (BigInt.ofLongLong fuel 2).bind (fun two =>
          (BigInt.pow fuel ⟨[3, 0, 999999999], false⟩ two).bind (fun p =>
            (BigInt.mul ⟨[3, 0, 999999999], false⟩ ⟨[3, 0, 999999999], false⟩).map
              (fun q => BigInt.eq p q))) = some true) :=
  pow_two_eq_mul_self ⟨[3, 0, 999999999], false⟩ (by decide)

/-! ## Magnitudes and their comparison -/

theorem sectionsValue_foldl (l : List Int) :
    ∀ acc : Int, l.foldl (fun a c => a * 1000000000 + c) acc
      = acc * 1000000000 ^ l.length + sectionsValue l := by
  induction l with
  | nil => intro acc; simp [sectionsValue]
  | cons c l ih =>
    intro acc
    simp only [sectionsValue, List.foldl_cons, List.length_cons]
    rw [ih (acc * 1000000000 + c), ih (0 * 1000000000 + c)]
    ring

theorem sectionsValue_cons (c : Int) (l : List Int) :
    sectionsValue (c :: l) = c * 1000000000 ^ l.length + sectionsValue l := by
  have h := sectionsValue_foldl l (0 * 1000000000 + c)
  simp only [sectionsValue, List.foldl_cons]
  rw [h]
  simp [sectionsValue]

/-- Sections in range denote a magnitude below `10^9` to the number of sections. -/
theorem sectionsValue_bounds (l : List Int) (hr : ∀ c ∈ l, 0 ≤ c ∧ c ≤ 999999999) :
    0 ≤ sectionsValue l ∧ sectionsValue l < 1000000000 ^ l.length := by
  induction l with
  | nil => simp [sectionsValue]
  | cons c l ih =>
    have hc := hr c (List.mem_cons_self c l)
    obtain ⟨h0, h1⟩ := ih (fun d hd => hr d (List.mem_cons_of_mem c hd))
    have hP : (0 : Int) < 1000000000 ^ l.length := by positivity
    rw [sectionsValue_cons, List.length_cons, pow_succ]
    constructor
    · have := mul_nonneg hc.1 (le_of_lt hP)
      omega
    · have h2 : c * 1000000000 ^ l.length ≤ 999999999 * 1000000000 ^ l.length :=
        mul_le_mul_of_nonneg_right hc.2 (le_of_lt hP)
      nlinarith

/-- On lists of equal length with sections in range, the loop of
`m_isAbsLittleThan` decides the order of the magnitudes. -/
theorem m_isAbsLittleThan_loop_iff (m : List Int) :
    ∀ e : List Int, m.length = e.length →
      (∀ c ∈ m, 0 ≤ c ∧ c ≤ 999999999) → (∀ c ∈ e, 0 ≤ c ∧ c ≤ 999999999) →
      (m_isAbsLittleThan_loop m e = true ↔ sectionsValue m < sectionsValue e) := by
  induction m with
  | nil =>
    intro e hl _ _
    cases e with
    | nil => simp [m_isAbsLittleThan_loop]
    | cons y e => simp at hl
  | cons x m ih =>
    intro e hl hm he
    cases e with
    | nil => simp at hl
    | cons y e =>
      have hlen : m.length = e.length := by simpa using hl
      have hm' : ∀ c ∈ m, 0 ≤ c ∧ c ≤ 999999999 :=
        fun c hc => hm c (List.mem_cons_of_mem x hc)
      have he' : ∀ c ∈ e, 0 ≤ c ∧ c ≤ 999999999 :=
        fun c hc => he c (List.mem_cons_of_mem y hc)
      obtain ⟨hm0, hm1⟩ := sectionsValue_bounds m hm'
      obtain ⟨he0, he1⟩ := sectionsValue_bounds e he'
      have hP : (0 : Int) < 1000000000 ^ e.length := by positivity
      rw [sectionsValue_cons, sectionsValue_cons, hlen]
      rw [hlen] at hm1
      by_cases hxy : x < y
      · have h1 : (x + 1) * 1000000000 ^ e.length ≤ y * 1000000000 ^ e.length :=
          mul_le_mul_of_nonneg_right (by omega) (le_of_lt hP)
        simp only [m_isAbsLittleThan_loop, hxy, if_true, true_iff]
        nlinarith
      · by_cases hyx : x > y
        · have h1 : (y + 1) * 1000000000 ^ e.length ≤ x * 1000000000 ^ e.length :=
            mul_le_mul_of_nonneg_right (by omega) (le_of_lt hP)
          simp only [m_isAbsLittleThan_loop, hxy, hyx, if_true, if_false]
          constructor
          · intro h; exact absurd h (by decide)
          · intro h; nlinarith
        · have hxe : x = y := by omega
          subst hxe
          simp only [m_isAbsLittleThan_loop, hxy, hyx, if_false]
          rw [ih e hlen hm' he']
          constructor <;> intro h <;> linarith

/-- A valid list with more sections denotes a larger magnitude. -/
theorem sectionsValue_lt_of_length_lt (m e : List Int)
    (hm : ∀ c ∈ m, 0 ≤ c ∧ c ≤ 999999999) (he : ValidSections e)
    (hl : m.length < e.length) (hmne : m ≠ []) :
    sectionsValue m < sectionsValue e := by
  obtain ⟨hene, her, hez⟩ := he
  cases e with
  | nil => exact absurd rfl hene
  | cons y e =>
    have hy := her y (List.mem_cons_self y e)
    have hyne : y ≠ 0 := by
      intro h0
      subst h0
      have := hez rfl
      have hlen : m.length < 1 := by simpa [this] using hl
      have : m = [] := List.length_eq_zero.mp (by omega)
      exact hmne this
    obtain ⟨-, hm1⟩ := sectionsValue_bounds m hm
    obtain ⟨he0, -⟩ := sectionsValue_bounds e (fun c hc => her c (List.mem_cons_of_mem y hc))
    have hle : m.length ≤ e.length := by
      simp only [List.length_cons] at hl; omega
    have hpow : (1000000000 : Int) ^ m.length ≤ 1000000000 ^ e.length :=
      pow_le_pow_right₀ (by decide) hle
    have hP : (0 : Int) < 1000000000 ^ e.length := by positivity
    have h1 : 1 * 1000000000 ^ e.length ≤ y * 1000000000 ^ e.length :=
      mul_le_mul_of_nonneg_right (by omega) (le_of_lt hP)
    rw [sectionsValue_cons]
    linarith

/-- On valid lists `m_isAbsLittleThan` decides the order of the magnitudes. -/
theorem m_isAbsLittleThan_iff (x y : List Int) (hx : ValidSections x) (hy : ValidSections y) :
    m_isAbsLittleThan x y = true ↔ sectionsValue x < sectionsValue y := by
  unfold m_isAbsLittleThan
  by_cases h1 : x.length < y.length
  · simp only [h1, if_true, true_iff]
    exact sectionsValue_lt_of_length_lt x y hx.2.1 hy h1 hx.1
  · by_cases h2 : x.length > y.length
    · have := sectionsValue_lt_of_length_lt y x hy.2.1 hx h2 hy.1
      simp only [h1, h2, if_true, if_false]
      constructor
      · intro h; exact absurd h (by decide)
      · intro h; linarith
    · simp only [h1, h2, if_false]
      exact m_isAbsLittleThan_loop_iff x y (by omega) hx.2.1 hy.2.1

theorem sectionsValue_clearZeroSections (l : List Int) :
    sectionsValue (clearZeroSections l) = sectionsValue l := by
  induction l with
  | nil => rfl
  | cons x xs ih =>
    by_cases h : 0 = x
    · subst h
      simp only [clearZeroSections, if_true, ih, sectionsValue_cons]
      simp
    · simp [clearZeroSections, h]

/-! ## Magnitude subtraction -/

/-- The first loop of `m_AbsMinus` when the operand is not longer than the
receiver and, at equal length, not larger: it never borrows from beyond the
front, and the rewritten sections in front of the untouched ones denote the
difference. The receiver's first pending section may have been lowered to `-1`
by a borrow. -/
theorem m_AbsMinus_loop_spec (ts : List Int) :
    ∀ (ms done : List Int), (∀ t ∈ ts, 0 ≤ t ∧ t ≤ 999999999) →
      (∀ m rest, ms = m :: rest →
        (-1 ≤ m ∧ m ≤ 999999999) ∧ ∀ c ∈ rest, 0 ≤ c ∧ c ≤ 999999999) →
      (ts.length < ms.length ∨
        (ts.length = ms.length ∧ sectionsValue ts.reverse ≤ sectionsValue ms.reverse)) →
      ∃ ms' pre, m_AbsMinus_loop ms ts done = some (ms', pre ++ done) ∧
        sectionsValue (ms'.reverse ++ pre)
          = sectionsValue ms.reverse - sectionsValue ts.reverse := by
  have hB : MAX_9BIT_INT_VALUE + 1 = 1000000000 := by decide
  induction ts with
  | nil =>
    intro ms done _ _ _
    exact ⟨ms, [], by simp [m_AbsMinus_loop_nil_right], by simp [sectionsValue]⟩
  | cons t ts ih =>
    intro ms done hts hms hlen
    have ht := hts t (List.mem_cons_self t ts)
    have hts' : ∀ c ∈ ts, 0 ≤ c ∧ c ≤ 999999999 :=
      fun c hc => hts c (List.mem_cons_of_mem t hc)
    cases ms with
    | nil => simp at hlen
    | cons m ms1 =>
      obtain ⟨hm, hms1⟩ := hms m ms1 rfl
      simp only [List.reverse_cons, sectionsValue_append_singleton, List.length_cons] at hlen ⊢
      by_cases hlt : m < t
      · cases ms1 with
        | nil =>
          exfalso
          rcases hlen with h | ⟨h1, h2⟩
          · simp at h
          · have : ts = [] := List.length_eq_zero.mp (by simpa using h1)
            subst this
            simp [sectionsValue] at h2
            omega
        | cons n ns =>
          have hn := hms1 n (List.mem_cons_self n ns)
          have hw1 : wrap32 (n - 1) = n - 1 := wrap32_eq_self (by omega) (by omega)
          have hw2 : wrap32 (m + 1000000000) = m + 1000000000 :=
            wrap32_eq_self (by omega) (by omega)
          have hw3 : wrap32 (m + 1000000000 - t) = m + 1000000000 - t :=
            wrap32_eq_self (by omega) (by omega)
          have hval : sectionsValue ((n - 1) :: ns).reverse
              = sectionsValue (n :: ns).reverse - 1 := by
            simp only [List.reverse_cons, sectionsValue_append_singleton]
            ring
          obtain ⟨ms', pre, hloop, hv⟩ :=
            ih ((n - 1) :: ns) ((m + 1000000000 - t) :: done) hts'
              (fun a rest h => by
                obtain ⟨rfl, rfl⟩ := List.cons.inj h
                exact ⟨⟨by omega, by omega⟩,
                  fun c hc => hms1 c (List.mem_cons_of_mem n hc)⟩)
              (by
                rw [hval]
                simp only [List.length_cons] at hlen ⊢
                rcases hlen with h | ⟨h1, h2⟩
                · left; omega
                · right; exact ⟨by omega, by omega⟩)
          refine ⟨ms', pre ++ [m + 1000000000 - t], ?_, ?_⟩
          · rw [m_AbsMinus_loop, if_pos hlt]
            simp only [hB, hw1, hw2, hw3]
            rw [hloop]
            simp
          · rw [← List.append_assoc, sectionsValue_append_singleton, hv, hval]
            ring
      · have hw : wrap32 (m - t) = m - t := wrap32_eq_self (by omega) (by omega)
        obtain ⟨ms', pre, hloop, hv⟩ :=
          ih ms1 ((m - t) :: done) hts'
            (fun a rest h => by
              subst h
              have ha := hms1 a (List.mem_cons_self a rest)
              exact ⟨⟨by omega, ha.2⟩,
                fun c hc => hms1 c (List.mem_cons_of_mem a hc)⟩)
            (by
              rcases hlen with h | ⟨h1, h2⟩
              · left; omega
              · right; exact ⟨by omega, by omega⟩)
        refine ⟨ms', pre ++ [m - t], ?_, ?_⟩
        · simp only [m_AbsMinus_loop, if_neg hlt, hw, hloop]
          simp
        · rw [← List.append_assoc, sectionsValue_append_singleton, hv]
          ring

/-- The result of `m_AbsMinus` once its loop has returned: the zero sections are
cleared or the untouched sections kept, with the same magnitude either way. -/
theorem m_AbsMinus_result_value (ms' pre : List Int) :
    ∃ r, (if ms' = [] then some (clearZeroSections pre) else some (ms'.reverse ++ pre))
        = some r ∧ sectionsValue r = sectionsValue (ms'.reverse ++ pre) := by
  by_cases h : ms' = []
  · subst h
    exact ⟨clearZeroSections pre, by simp, by simp [sectionsValue_clearZeroSections]⟩
  · exact ⟨ms'.reverse ++ pre, by simp [h], rfl⟩

/-- C18. For valid section lists `x` (receiver) and `y`, `m_isAbsLittleThan`
holds exactly when `x` denotes less than `y` (so the smaller magnitude is the
one subtracted), `m_AbsMinus` returns (no borrow reaches beyond the front
section) and the sections it leaves denote `| |x| - |y| |`. -/
theorem m_AbsMinus_abs_difference (x y : List Int)
    (hx : ValidSections x) (hy : ValidSections y) :
    (m_isAbsLittleThan x y = true ↔ sectionsValue x < sectionsValue y) ∧
    ∃ r, m_AbsMinus x y = some r ∧
      sectionsValue r = |sectionsValue x - sectionsValue y| := by
  have hiff := m_isAbsLittleThan_iff x y hx hy
  have hrange : ∀ l : List Int, (∀ c ∈ l, 0 ≤ c ∧ c ≤ 999999999) →
      ∀ m rest, l.reverse = m :: rest →
        (-1 ≤ m ∧ m ≤ 999999999) ∧ ∀ c ∈ rest, 0 ≤ c ∧ c ≤ 999999999 := by
    intro l hl m rest h
    have hmem : ∀ c ∈ m :: rest, 0 ≤ c ∧ c ≤ 999999999 := by
      intro c hc
      rw [← h] at hc
      exact hl c (List.mem_reverse.mp hc)
    have hm := hmem m (List.mem_cons_self m rest)
    exact ⟨⟨by omega, hm.2⟩, fun c hc => hmem c (List.mem_cons_of_mem m hc)⟩
  refine ⟨hiff, ?_⟩
  cases hlittle : m_isAbsLittleThan x y
  · have hge : ¬ sectionsValue x < sectionsValue y := by
      rw [← hiff, hlittle]; decide
    have hlen : y.reverse.length < x.reverse.length ∨
        (y.reverse.length = x.reverse.length ∧
          sectionsValue y.reverse.reverse ≤ sectionsValue x.reverse.reverse) := by
      simp only [List.length_reverse, List.reverse_reverse]
      unfold m_isAbsLittleThan at hlittle
      by_cases h1 : x.length < y.length
      · simp [h1] at hlittle
      · by_cases h2 : x.length > y.length
        · left; exact h2
        · right; exact ⟨by omega, by omega⟩
    obtain ⟨ms', pre, hloop, hv⟩ :=
      m_AbsMinus_loop_spec y.reverse x.reverse []
        (fun c hc => hy.2.1 c (List.mem_reverse.mp hc)) (hrange x hx.2.1) hlen
    obtain ⟨r, hr, hrv⟩ := m_AbsMinus_result_value ms' pre
    refine ⟨r, ?_, ?_⟩
    · rw [m_AbsMinus_no_swap x y hlittle, hloop]
      simpa using hr
    · rw [hrv, hv, List.reverse_reverse, List.reverse_reverse, abs_of_nonneg (by omega)]
  · have hlt : sectionsValue x < sectionsValue y := hiff.mp hlittle
    have hlen : x.reverse.length < y.reverse.length ∨
        (x.reverse.length = y.reverse.length ∧
          sectionsValue x.reverse.reverse ≤ sectionsValue y.reverse.reverse) := by
      simp only [List.length_reverse, List.reverse_reverse]
      unfold m_isAbsLittleThan at hlittle
      by_cases h1 : x.length < y.length
      · left; exact h1
      · by_cases h2 : x.length > y.length
        · simp [h1, h2] at hlittle
        · right; exact ⟨by omega, by omega⟩
    obtain ⟨ms', pre, hloop, hv⟩ :=
      m_AbsMinus_loop_spec x.reverse y.reverse []
        (fun c hc => hx.2.1 c (List.mem_reverse.mp hc)) (hrange y hy.2.1) hlen
    obtain ⟨r, hr, hrv⟩ := m_AbsMinus_result_value ms' pre
    refine ⟨r, ?_, ?_⟩
    · rw [m_AbsMinus_swap x y hlittle, hloop]
      simpa using hr
    · rw [hrv, hv, List.reverse_reverse, List.reverse_reverse, abs_sub_comm,
        abs_of_nonneg (by omega)]

/-- The receiver `[1, 0, 0]` and the operand `[999999999, 999999999]`. -/
theorem m_AbsMinus_abs_difference_witness :
    (m_isAbsLittleThan [1, 0, 0] [999999999, 999999999] = true
      ↔ sectionsValue [1, 0, 0] < sectionsValue [999999999, 999999999]) ∧
    ∃ r, m_AbsMinus [1, 0, 0] [999999999, 999999999] = some r ∧
      sectionsValue r = |sectionsValue [1, 0, 0] - sectionsValue [999999999, 999999999]| :=
  m_AbsMinus_abs_difference [1, 0, 0] [999999999, 999999999] (by decide) (by decide)
